import Mathlib

/-!
Verification development for the multigraph `Generator` pipeline of
`energyflow/multigraphs/gen.py`.

The pipeline is embedded shallowly:

* a simple graph is represented by its edge list (`List Edge`), with the
  vertex count carried by the surrounding bucket key `(n, e)`;
* the external isomorphism oracle (igraph `isomorphic` /
  `isomorphic_vf2` with edge colors) is realized by brute force over all
  vertex permutations, which is the mathematical contract of the oracle;
* the external complexity collaborator (`VariableElimination.ve`) is an
  opaque parameter `chiF : List Edge → Nat → Nat` (edge list and vertex
  count to complexity); the contraction plans (`einstrs`/`einpaths`) are
  dropped from the embedding since they are opaque payloads appended in
  lockstep with `edges`, so their omission does not change any lengths,
  indices, or control flow;
* `int_partition_ordered` and `int_partition_unordered` live in
  `energyflow.algorithms` (not part of the sources under scrutiny); they
  are modelled from the spec, see their doc comments;
* Python dicts `ks` and `ndk2i` are embedded as `Option`-valued
  functions; the iteration `for ne in sorted(self.chis_d.keys())` is the
  ascending lexicographic list of bucket keys, which `allNE` produces
  directly;
* the Python `set` used for disconnected component specs has an
  unspecified iteration order; the embedding fixes insertion order
  (first occurrence), one of the determinizations the spec demands.
-/

/-- An undirected edge, stored as an ordered pair `(a, b)` with `a < b`
(as produced by `itertools.combinations` and igraph edge lists). -/
abbrev Edge := Nat × Nat

/-- Normalize a vertex pair to the `(min, max)` representation. -/
def normPair (a b : Nat) : Edge := (min a b, max a b)

/-- Apply a permutation, given as the list of images of `0, 1, ...`, to a
vertex. -/
def applyPerm (p : List Nat) (v : Nat) : Nat := p.getD v 0

/-- Image of an edge under a vertex permutation, renormalized. -/
def mapEdge (p : List Nat) (ed : Edge) : Edge := normPair (applyPerm p ed.1) (applyPerm p ed.2)

/-- All permutations of the vertex set `{0, ..., n-1}`, as lists of images. -/
def permsList (n : Nat) : List (List Nat) := (List.range n).permutations'

/-- Boolean list inclusion (of edge lists viewed as sets). -/
def subsetB (l1 l2 : List Edge) : Bool := l1.all fun ed => l2.contains ed

/-- Boolean equality of edge lists viewed as sets. -/
def sameEdgeSet (l1 l2 : List Edge) : Bool := subsetB l1 l2 && subsetB l2 l1

/-- The isomorphism oracle (igraph `Graph.isomorphic`) for two graphs on
`n` vertices given by their edge lists: some vertex permutation carries
the first edge set onto the second. -/
def isIso (n : Nat) (es1 es2 : List Edge) : Bool :=
  (permsList n).any fun p => sameEdgeSet (es1.map (mapEdge p)) es2

/-- Position of an edge in an edge list (edge ids are list positions). -/
def edgeIdx (x : Edge) : List Edge → Nat
  | [] => 0
  | e :: t => if e = x then 0 else edgeIdx x t + 1

/-- The edge-colored isomorphism oracle
(igraph `isomorphic_vf2(other=graph, edge_color1=c1, edge_color2=c2)` with
both sides the same underlying graph `es` on `n` vertices): some vertex
permutation is an automorphism of `es` and maps every edge to an edge of
equal color, where `c1` colors the domain copy and `c2` the codomain
(edge colors are indexed by edge id, i.e. position in the edge list). -/
def colorIso (n : Nat) (es : List Edge) (c1 c2 : List Nat) : Bool :=
  (permsList n).any fun p =>
    sameEdgeSet (es.map (mapEdge p)) es &&
    (List.range es.length).all fun idx =>
      c2.getD (edgeIdx (mapEdge p (es.getD idx (0, 0))) es) 0 == c1.getD idx 0

/-- Modelled from the spec (glossary, section 4.2):
`int_partition_ordered(d, e)` of `energyflow.algorithms` (not among the
sources) enumerates the ordered integer partitions of `d` into exactly
`e` strictly positive parts, i.e. all sequences of `e` positive integers
summing to `d`. The enumeration order is a fixed determinization. -/
def int_partition_ordered (d e : Nat) : List (List Nat) :=
  match e with
  | 0 => if d = 0 then [[]] else []
  | e' + 1 => (List.range' 1 d).flatMap fun a => (int_partition_ordered (d - a) e').map fun t => a :: t

/-- Partitions of `n` (second argument) into weakly decreasing positive
parts bounded by `maxp`, largest first part first. The first argument is
structural fuel; any fuel `≥ n` computes the partitions (each recursive
call strictly decreases `n`, so the `0, n+1` case is unreachable then). -/
def partsFuel : Nat → Nat → Nat → List (List Nat)
  | _, 0, _ => [[]]
  | 0, _ + 1, _ => []
  | fuel + 1, n + 1, maxp => (List.range (min maxp (n + 1))).reverse.flatMap fun a0 =>
      (partsFuel fuel (n - a0) (a0 + 1)).map fun t => (a0 + 1) :: t

/-- Modelled from the spec (glossary, section 4.4):
`int_partition_unordered(n)` of `energyflow.algorithms` (not among the
sources) enumerates the unordered integer partitions of `n`, each as a
weakly decreasing list of positive parts. The enumeration order is a
fixed determinization. -/
def int_partition_unordered (n : Nat) : List (List Nat) := partsFuel n n n

/-- Mirrors `self.emaxs[n] = min(self.emax, int(n/2*(n-1)))` (the float
arithmetic is exact since `n*(n-1)` is even). -/
def emaxs (emax n : Nat) : Nat := min emax (n * (n - 1) / 2)

/-- Mirrors `self.esbyn[n] = list(range(n-1, self.emaxs[n]+1))`. -/
def esbyn (emax n : Nat) : List Nat := List.range' (n - 1) (emaxs emax n + 1 - (n - 1))

/-- All bucket keys `(n, e)` in ascending lexicographic order; this is
both the container key set and `sorted(self.chis_d.keys())`. -/
def allNE (nmax emax : Nat) : List (Nat × Nat) :=
  (List.range' 2 (nmax + 1 - 2)).flatMap fun n => (esbyn emax n).map fun e => (n, e)

/-- Mirrors `self.base_edges[n] = list(itertools.combinations(range(n), 2))`. -/
def baseEdges (n : Nat) : List Edge :=
  (List.range n).flatMap fun i => (List.range' (i + 1) (n - (i + 1))).map fun j => (i, j)

/-- Mirrors `Generator._add_if_new`: a bucket entry is a pair of an edge
list and its complexity; the candidate is dropped if isomorphic to an
existing entry, then dropped if its complexity exceeds `cmax`, otherwise
appended together with its complexity. -/
def addIfNew (chiF : List Edge → Nat → Nat) (cmax n : Nat)
    (bucket : List (List Edge × Nat)) (cand : List Edge) : List (List Edge × Nat) :=
  if bucket.any fun gc => isIso n cand gc.1 then bucket
  else if cmax < chiF cand n then bucket
  else bucket ++ [(cand, chiF cand n)]

/-- Vertex-extension candidates: for every seed graph of the
`(n-1, e-1)` bucket and every existing vertex `v`, attach a new vertex
`n-1` by the edge `(v, n-1)`. -/
def vertCands (parent : List (List Edge × Nat)) (n : Nat) : List (List Edge) :=
  parent.flatMap fun gc => (List.range (n - 1)).map fun v => gc.1 ++ [(v, n - 1)]

/-- Edge-extension candidates: for every seed graph of the `(n, e-1)`
bucket and every base edge not already present, add that edge. -/
def edgeCands (parent : List (List Edge × Nat)) (n : Nat) : List (List Edge) :=
  parent.flatMap fun gc => ((baseEdges n).filter fun ed => !(gc.1.contains ed)).map fun ed => gc.1 ++ [ed]

/-- Mirrors `Generator._generate_simple`, per bucket. A bucket `(n, e)`
is written only while the loop visits `(n, e)` and reads only the
completed buckets `(n-1, e-1)` and `(n, e-1)`, so the imperative loop is
equivalent to this recursion on the bucket key. The guards on the
recursive calls are `e-1 in self.esbyn[n-1]` resp.
`e-1 in self.esbyn[n]`; the outer guard restricts to actual container
keys (`n` in `ns`, `e` in `esbyn[n]`), and the base case is
`_add_if_new(igraph.Graph.Full(2), (2,1))`. -/
def simpleBucketGo (chiF : List Edge → Nat → Nat) (nmax emax cmax : Nat) :
    Nat → Nat → List (List Edge × Nat)
  | e, n =>
    if n < 2 ∨ nmax < n ∨ e < n - 1 ∨ emaxs emax n < e then []
    else if n = 2 then addIfNew chiF cmax 2 [] [(0, 1)]
    else
      match e with
      | 0 => []
      | e' + 1 =>
        let vc := if n - 2 ≤ e' ∧ e' ≤ emaxs emax (n - 1) then
            vertCands (simpleBucketGo chiF nmax emax cmax e' (n - 1)) n
          else []
        let ec := if n - 1 ≤ e' ∧ e' ≤ emaxs emax n then
            edgeCands (simpleBucketGo chiF nmax emax cmax e' n) n
          else []
        (vc ++ ec).foldl (addIfNew chiF cmax n) []

/-- The `(n, e)` bucket of accepted simple graphs (edge list and
complexity, in acceptance order). The inner `e = 0` case of
`simpleBucketGo` is unreachable (the key guard forces `e ≥ n - 1 ≥ 2`
there). -/
def simpleBucket (chiF : List Edge → Nat → Nat) (nmax emax cmax : Nat) (n e : Nat) :
    List (List Edge × Nat) :=
  simpleBucketGo chiF nmax emax cmax e n

/-- Mirrors the body of `Generator._generate_weights` for one simple
graph with edge list `es` on `n` vertices and `e` edges: for each `d`
from `e` to `dmax`, every ordered partition of `d` into `e` positive
parts is kept unless edge-colored-isomorphic to an already kept
weighting. -/
def weightFold (n : Nat) (es : List Edge) (e dmax : Nat) : List (List Nat) :=
  ((List.range' e (dmax + 1 - e)).flatMap fun d => int_partition_ordered d e).foldl
    (fun acc part => if acc.any fun wtng => colorIso n es wtng part then acc else acc ++ [part]) []

/-- Mirrors `self.weights_d` after `Generator._generate_weights`: the
`(2,1)` bucket receives the single hard-coded list
`[(d,) for d in range(1, dmax+1)]`; every other bucket receives one
weighting list per accepted simple graph, in bucket order. -/
def weightsD (chiF : List Edge → Nat → Nat) (dmax nmax emax cmax : Nat) (n e : Nat) :
    List (List (List Nat)) :=
  if n = 2 ∧ e = 1 then [(List.range' 1 dmax).map fun d => [d]]
  else (simpleBucket chiF nmax emax cmax n e).map fun gc => weightFold n gc.1 e dmax

/-- One row of the `specs` table, columns `[n,e,d,k,g,w,c,p]`. -/
structure SpecRow where
  n : Int
  e : Int
  d : Int
  k : Int
  g : Int
  w : Int
  c : Int
  p : Int
deriving DecidableEq, Repr

/-- State of the connected-catalog pass of
`Generator._generate_disconnected` (lines 209-231): accumulated rows,
flattened weighting and edge arrays, the `(n,d) -> count` dict `ks`, the
`(n,d,k) -> row index` dict `ndk2i`, and the counters `g`, `w`, `i`. -/
structure ConnOut where
  specs : List SpecRow
  wts : List (List Nat)
  edgesA : List (List Edge)
  ks : List ((Nat × Nat) × Nat)
  ndk2i : List ((Nat × Nat × Nat) × Nat)
  g : Nat
  w : Nat
  i : Nat
deriving DecidableEq

/-- Dict lookup: the Python dicts are embedded as association lists in
which an update prepends a binding, shadowing the previous one; `lookup`
returns the newest binding of a key. -/
def dictKs (m : List ((Nat × Nat) × Nat)) (q : Nat × Nat) : Option Nat := m.lookup q

/-- Dict lookup for the `(n,d,k) -> row index` table. -/
def dictNdk (m : List ((Nat × Nat × Nat) × Nat)) (q : Nat × Nat × Nat) : Option Nat := m.lookup q

/-- Initial connected-pass state (`g = w = i = 0`, empty dicts/arrays). -/
def connInit : ConnOut := ⟨[], [], [], [], [], 0, 0, 0⟩

/-- Innermost loop body `for weighting in weights` of the connected
pass: `k = ks.setdefault((n,d),0); ks[(n,d)] += 1`, append the row, record
`ndk2i[(n,d,k)] = i`, append the weighting, `w += 1; i += 1`. -/
def connWStep (n e chi : Nat) (s : ConnOut) (wtng : List Nat) : ConnOut :=
  let d := wtng.sum
  let k := (dictKs s.ks (n, d)).getD 0
  { specs := s.specs ++ [⟨(n : Int), (e : Int), (d : Int), (k : Int), (s.g : Int), (s.w : Int), (chi : Int), 1⟩]
    wts := s.wts ++ [wtng]
    edgesA := s.edgesA
    ks := ((n, d), k + 1) :: s.ks
    ndk2i := ((n, d, k), s.i) :: s.ndk2i
    g := s.g
    w := s.w + 1
    i := s.i + 1 }

/-- Per-graph loop body of the connected pass: process all weightings of
the graph, then append its edge list and increment `g`. -/
def connGStep (n e : Nat) (s : ConnOut) (x : (List Edge × Nat) × List (List Nat)) : ConnOut :=
  let s2 := x.2.foldl (connWStep n e x.1.2) s
  { s2 with edgesA := s2.edgesA ++ [x.1.1], g := s2.g + 1 }

/-- Per-bucket loop body of the connected pass: zip the bucket's graphs
with their weighting lists (Python `zip` truncates to the shorter side,
as does `List.zip`, which matters when the `(2,1)` graph was rejected by
`cmax` but its hard-coded weighting list exists). -/
def connNEStep (chiF : List Edge → Nat → Nat) (dmax nmax emax cmax : Nat)
    (s : ConnOut) (ne : Nat × Nat) : ConnOut :=
  ((simpleBucket chiF nmax emax cmax ne.1 ne.2).zip
    (weightsD chiF dmax nmax emax cmax ne.1 ne.2)).foldl (connGStep ne.1 ne.2) s

/-- The whole connected-catalog pass: fold the buckets in ascending
lexicographic key order. -/
def connPhase (chiF : List Edge → Nat → Nat) (dmax nmax emax cmax : Nat) : ConnOut :=
  (allNE nmax emax).foldl (connNEStep chiF dmax nmax emax cmax) connInit

/-- Maximum of a list of naturals (Python `max` on a nonempty list). -/
def listMax (l : List Nat) : Nat := l.foldr max 0

/-- Mirrors `good_part`: no part equal to 1, no part above `nmax`, and
more than one part. -/
def goodPart (nmax : Nat) (x : List Nat) : Bool :=
  !(x.contains 1) && decide (listMax x ≤ nmax) && decide (1 < x.length)

/-- Insert `x` into a sorted list, after any element `y` with `le y x`
(so the sort below is stable, like Python's `sort`/`sorted`). -/
def insertSorted (le : List Nat -> List Nat -> Bool) : List (List Nat) → List Nat → List (List Nat)
  | [], x => [x]
  | y :: ys, x => if le y x then y :: insertSorted le ys x else x :: y :: ys

/-- Stable insertion sort for lists of naturals' lists. -/
def sortedBy (le : List Nat -> List Nat -> Bool) (l : List (List Nat)) : List (List Nat) :=
  l.foldl (insertSorted le) []

/-- Insert a pair into a sorted list of pairs (stable). -/
def insertSortedP (le : Nat × Nat -> Nat × Nat -> Bool) : List (Nat × Nat) → Nat × Nat → List (Nat × Nat)
  | [], x => [x]
  | y :: ys, x => if le y x then y :: insertSortedP le ys x else x :: y :: ys

/-- Stable insertion sort for lists of pairs. -/
def sortedByP (le : Nat × Nat -> Nat × Nat -> Bool) (l : List (Nat × Nat)) : List (Nat × Nat) :=
  l.foldl (insertSortedP le) []

/-- Insert a natural into a sorted list of naturals (stable). -/
def insertSortedN : List Nat → Nat → List Nat
  | [], x => [x]
  | y :: ys, x => if y ≤ x then y :: insertSortedN ys x else x :: y :: ys

/-- Stable insertion sort for lists of naturals. -/
def sortedByN (l : List Nat) : List Nat := l.foldl insertSortedN []

/-- The filtered `n_parts`, stably sorted by length (`n_parts.sort(key=len)`). -/
def nPartsSorted (nmax n : Nat) : List (List Nat) :=
  sortedBy (fun a b => decide (a.length ≤ b.length))
    ((int_partition_unordered n).filter (goodPart nmax))

/-- Keep the first occurrence of every element (the insertion-order
determinization of a Python `set` built by successive `add`s). -/
def dedupFirst (l : List (List (Nat × Nat))) : List (List (Nat × Nat)) :=
  l.foldl (fun acc x => if x ∈ acc then acc else acc ++ [x]) []

/-- Keep the first occurrence of every permutation (the
`set(itertools.permutations(n_part))` step). -/
def dedupPerms (l : List (List Nat)) : List (List Nat) :=
  l.foldl (fun acc x => if x ∈ acc then acc else acc ++ [x]) []

/-- Sort a list of pairs lexicographically (Python `sorted` on tuples). -/
def sortPairs (l : List (Nat × Nat)) : List (Nat × Nat) :=
  sortedByP (fun a b => decide (a.1 < b.1) || (decide (a.1 = b.1) && decide (a.2 ≤ b.2))) l

/-- Sort a list of naturals ascending (Python `sorted`). -/
def sortNat (l : List Nat) : List Nat := sortedByN l

/-- The deduplicated component specs for one `(n, d, n_part)` cell: all
distinct orderings of `n_part` zipped with all `d_part`s of matching
length, sorted, kept when every `(n_i, d_i)` pair is a `ks` key. -/
def specPairs (conn : ConnOut) (n_part : List Nat) (d_parts : List (List Nat)) :
    List (List (Nat × Nat)) :=
  dedupFirst ((dedupPerms n_part.permutations').flatMap fun n_ord =>
    d_parts.filterMap fun d_part =>
      let sp := sortPairs (n_ord.zip d_part)
      if sp.all fun pr => (dictKs conn.ks pr).isSome then some sp else none)

/-- Fallback row for `connected_specs[ind]` lookups (the indices are
provably in range, see the theorems below). -/
def row0 : SpecRow := ⟨0, 0, 0, 0, 0, 0, 0, 0⟩

/-- Mirrors `itertools.product(*[range(c) for c in cs])`, leftmost
factor slowest. -/
def natProduct : List Nat → List (List Nat)
  | [] => [[]]
  | c :: rest => (List.range c).flatMap fun idx => (natProduct rest).map fun t => idx :: t

/-- The `(formula, spec-row)` pairs emitted for one retained component
spec `sp` at target `(n, d)`: `kcount` starts at `ks[(n,d)]` (0 when the
key is absent) and increments per emitted row; `ks` itself is never
updated here, exactly as in the source. -/
def discRowsFor (conn : ConnOut) (n d : Nat) (sp : List (Nat × Nat)) :
    List (List Nat × SpecRow) :=
  let kbase := (dictKs conn.ks (n, d)).getD 0
  (natProduct (sp.map fun pr => (dictKs conn.ks pr).getD 0)).enum.map fun jk =>
    let formula := (sp.zip jk.2).map fun pk => (dictNdk conn.ndk2i (pk.1.1, pk.1.2, pk.2)).getD 0
    let cM := formula.foldl (fun a ind => max a ((conn.specs.getD ind row0).c)) 0
    let eM := formula.foldl (fun a ind => max a ((conn.specs.getD ind row0).e)) 0
    (sortNat formula,
      ⟨(n : Int), eM, (d : Int), ((kbase + jk.1 : Nat) : Int), -1, -1, cM, (jk.2.length : Int)⟩)

/-- All `(formula, spec-row)` pairs of the disconnected composer, in
emission order, before the duplicate-formula mask. -/
def discAll (conn : ConnOut) (dmax nmax : Nat) : List (List Nat × SpecRow) :=
  (List.range' 4 (2 * dmax + 1 - 4)).flatMap fun n =>
    (List.range' (n / 2) (dmax + 1 - n / 2)).flatMap fun d =>
      (nPartsSorted nmax n).flatMap fun n_part =>
        let d_parts := (int_partition_unordered d).filter fun x => x.length == n_part.length
        if d_parts.isEmpty then []
        else (specPairs conn n_part d_parts).flatMap fun sp => discRowsFor conn n d sp

/-- The duplicate-formula mask: keep a pair when its formula has not
occurred earlier (`not (form in seen or seen.add(form))`), applied to
formulae and spec rows in parallel. -/
def maskKeep (seen : List (List Nat)) : List (List Nat × SpecRow) → List (List Nat × SpecRow)
  | [] => []
  | pr :: rest => if pr.1 ∈ seen then maskKeep seen rest
      else pr :: maskKeep (seen ++ [pr.1]) rest

/-- The full catalog produced by `Generator.__init__` (after
`_generate_simple`, `_generate_weights`, `_generate_disconnected`), with
all four bounds already resolved (the Python defaults are
`nmax = dmax+1`, `emax = dmax`, `cmax = nmax`). -/
structure GenOut where
  connected_specs : List SpecRow
  weights : List (List Nat)
  edges : List (List Edge)
  ks : List ((Nat × Nat) × Nat)
  ndk2i : List ((Nat × Nat × Nat) × Nat)
  disc_formulae : List (List Nat)
  disc_specs : List SpecRow
  specs : List SpecRow
deriving DecidableEq

/-- Run the whole pipeline. `specs` is the row concatenation of
connected then disconnected rows (`np.concatenate`; when no disconnected
row survives the concatenation degenerates to the connected rows, which
the list append also yields). -/
def generator (chiF : List Edge → Nat → Nat) (dmax nmax emax cmax : Nat) : GenOut :=
  let conn := connPhase chiF dmax nmax emax cmax
  let kept := maskKeep [] (discAll conn dmax nmax)
  ⟨conn.specs, conn.wts, conn.edgesA, conn.ks, conn.ndk2i,
    kept.map (fun pr => pr.1), kept.map (fun pr => pr.2),
    conn.specs ++ kept.map (fun pr => pr.2)⟩

/-- An example complexity collaborator: complexity equal to the vertex
count (isomorphism-invariant by construction). -/
def chiN (_es : List Edge) (n : Nat) : Nat := n

/-- An adversarial complexity collaborator: deterministic, but not
isomorphism-invariant (it scores some labeled copies of the 4-vertex
path differently from others). -/
def chiAdv (es : List Edge) (_n : Nat) : Nat :=
  if es = [(0, 1), (0, 2)] then 2
  else if es = [(0, 1), (0, 2), (1, 3)] then 3
  else if es = [(0, 1), (0, 2), (2, 3)] then 3
  else 1

/-- C1: the claim says the k values over all rows with a fixed (n,d)
form {0,...,count-1} with no duplicates. The code violates this (and its
own column documentation, which calls k a "unique index for graphs with
a fixed (n,d)"): during disconnected composition `kcount` restarts at
`ks[(n,d)]` for every component spec and `ks` is never updated, so two
different specs for the same (n,d) emit overlapping k values. At
dmax=4, nmax=2 (emax=4, cmax=2 defaults) the target (n,d) = (4,4) has
the two specs {(2,1),(2,3)} and {(2,2),(2,2)}, and the two resulting
catalog rows both get k = 0. -/
theorem C1_disc_k_not_unique :
    ((generator chiN 4 2 4 2).specs.filter fun r => r.n == 4 && r.d == 4).map (fun r => r.k)
      = [0, 0] := by
  decide

/-- C2, counterexample: `Generator.__init__` performs no validation at
all. With the invalid configuration cmax = 0 (< 1), dmax=1, nmax=2,
emax=1 and the collaborator `chiN`, construction does not fail before
generation: the whole pipeline runs and produces a catalog (here an
empty one, every candidate graph being rejected by the cmax filter). -/
theorem C2_counterexample :
    (generator chiN 1 2 1 0).connected_specs = [] ∧
    (generator chiN 1 2 1 0).specs = [] ∧
    (generator chiN 1 2 1 0).disc_formulae = [] := by
  decide

/-- C2, amended: invalid configurations are not rejected; there is no
InvalidConfiguration check before generation. For the invalid bound
cmax = 0 (with dmax=1, nmax=2, emax=1) and any collaborator that scores
the base graph at least 1, generation runs to completion and yields an
empty catalog instead of failing. -/
theorem C2_no_validation (chiF : List Edge → Nat → Nat) (h : 1 ≤ chiF [(0, 1)] 2) :
    (generator chiF 1 2 1 0).specs = [] := by
  have h2 : 0 < chiF [(0, 1)] 2 := h
  have hb : simpleBucket chiF 2 1 0 2 1 = [] := by
    simp [simpleBucket, simpleBucketGo, addIfNew, emaxs, h2]
  simp [generator, connPhase, allNE, esbyn, emaxs, connNEStep, hb, discAll, maskKeep, connInit,
    List.range']

/-- C2, witness for the amended theorem at the concrete collaborator
`chiN` (which scores the base graph 2 ≥ 1). -/
theorem C2_no_validation_witness : (generator chiN 1 2 1 0).specs = [] :=
  C2_no_validation chiN (by decide)

/-- C3, counterexample: at dmax=2 with default bounds (nmax=3, emax=2,
cmax=3) and collaborator `chiN`, the connected row of index 2 is owned
by the single graph of bucket (3,2) — whose position within its own
bucket is therefore 0 — yet its g field is 1. Hence g is not the owning
graph's position within its (n,e) bucket; it is the global index in the
flattened `edges` array (the code's own column comment: "index of simple
edges in edges"). -/
theorem C3_counterexample :
    (generator chiN 2 3 2 3).connected_specs.getD 2 row0 = ⟨3, 2, 2, 0, 1, 2, 3, 1⟩ ∧
    (simpleBucket chiN 3 2 3 3 2).length = 1 := by
  decide

set_option maxHeartbeats 4000000 in
/-- C8: scenario B. With dmax=2, nmax=2 (emax=2, cmax=2 defaults) and
any collaborator scoring the single base graph at most cmax=2, the
connected rows are exactly (2,1,1,0) and (2,1,2,0), and the composer
emits the single disconnected row (n=4, e=1, d=2, k=0, g=-1, w=-1, p=2)
whose formula is the sorted tuple [0,0] holding the row index of
(2,1,1,0) twice. -/
theorem C8_scenario_b (chiF : List Edge → Nat → Nat) (h : chiF [(0, 1)] 2 ≤ 2) :
    (generator chiF 2 2 2 2).connected_specs =
      [⟨2, 1, 1, 0, 0, 0, (chiF [(0, 1)] 2 : Int), 1⟩,
       ⟨2, 1, 2, 0, 0, 1, (chiF [(0, 1)] 2 : Int), 1⟩] ∧
    (generator chiF 2 2 2 2).disc_specs = [⟨4, 1, 2, 0, -1, -1, (chiF [(0, 1)] 2 : Int), 2⟩] ∧
    (generator chiF 2 2 2 2).disc_formulae = [[0, 0]] := by
  have h2 : ¬ (2 < chiF [(0, 1)] 2) := Nat.not_lt.mpr h
  have hb : simpleBucket chiF 2 2 2 2 1 = [([(0, 1)], chiF [(0, 1)] 2)] := by
    simp [simpleBucket, simpleBucketGo, addIfNew, emaxs, isIso, h2]
  have hconn : connPhase chiF 2 2 2 2 =
      ⟨[⟨2, 1, 1, 0, 0, 0, (chiF [(0, 1)] 2 : Int), 1⟩,
        ⟨2, 1, 2, 0, 0, 1, (chiF [(0, 1)] 2 : Int), 1⟩],
       [[1], [2]], [[(0, 1)]],
       [((2, 2), 1), ((2, 1), 1)], [((2, 2, 0), 1), ((2, 1, 0), 0)], 1, 2, 2⟩ := by
    show (connNEStep chiF 2 2 2 2 connInit (2, 1)) = _
    simp only [connNEStep]
    rw [hb]
    rfl
  have hd : maskKeep [] (discAll
      ⟨[⟨2, 1, 1, 0, 0, 0, (chiF [(0, 1)] 2 : Int), 1⟩,
        ⟨2, 1, 2, 0, 0, 1, (chiF [(0, 1)] 2 : Int), 1⟩],
       [[1], [2]], [[(0, 1)]],
       [((2, 2), 1), ((2, 1), 1)], [((2, 2, 0), 1), ((2, 1, 0), 0)], 1, 2, 2⟩ 2 2) =
      [([0, 0], ⟨4, 1, 2, 0, -1, -1,
        max (max 0 (chiF [(0, 1)] 2 : Int)) (chiF [(0, 1)] 2 : Int), 2⟩)] := rfl
  have hM : max (max 0 (chiF [(0, 1)] 2 : Int)) (chiF [(0, 1)] 2 : Int)
      = (chiF [(0, 1)] 2 : Int) := by
    rw [max_eq_right (Int.natCast_nonneg _), max_self]
  refine ⟨?_, ?_, ?_⟩
  · show (connPhase chiF 2 2 2 2).specs = _
    rw [hconn]
  · show (maskKeep [] (discAll (connPhase chiF 2 2 2 2) 2 2)).map (fun pr => pr.2) = _
    rw [hconn, hd, hM]
    rfl
  · show (maskKeep [] (discAll (connPhase chiF 2 2 2 2) 2 2)).map (fun pr => pr.1) = _
    rw [hconn, hd]
    rfl

/-- C8, witness at the concrete collaborator `chiN`, which scores the
base graph exactly 2 ≤ cmax. -/
theorem C8_scenario_b_witness :
    (generator chiN 2 2 2 2).connected_specs =
      [⟨2, 1, 1, 0, 0, 0, (chiN [(0, 1)] 2 : Int), 1⟩,
       ⟨2, 1, 2, 0, 0, 1, (chiN [(0, 1)] 2 : Int), 1⟩] ∧
    (generator chiN 2 2 2 2).disc_specs = [⟨4, 1, 2, 0, -1, -1, (chiN [(0, 1)] 2 : Int), 2⟩] ∧
    (generator chiN 2 2 2 2).disc_formulae = [[0, 0]] :=
  C8_scenario_b chiN (by decide)

/-- C9, counterexample: the claim quantifies over runs differing only in
cmax with an arbitrary (deterministic) complexity collaborator. With the
deterministic but non-isomorphism-invariant collaborator `chiAdv` and
nmax=4, emax=3, raising cmax from 1 to 2 changes which labeled
representative of the 3-vertex path survives bucket (3,2); the cmax=2
representative's extensions into bucket (4,3) are scored above 2, so
bucket (4,3) holds 2 graphs at cmax=1 but only 1 at cmax=2 — the count
decreases. -/
theorem C9_counterexample :
    (simpleBucket chiAdv 4 3 1 4 3).length = 2 ∧
    (simpleBucket chiAdv 4 3 2 4 3).length = 1 := by
  decide

/-- Invariant preservation through a left fold. -/
theorem foldl_pres {α σ : Type _} {P : σ → Prop} {f : σ → α → σ} :
    ∀ {l : List α} {s : σ}, P s → (∀ s' a, a ∈ l → P s' → P (f s' a)) → P (l.foldl f s) := by
  intro l
  induction l with
  | nil => intro s h0 _; exact h0
  | cons a tl ih =>
    intro s h0 hstep
    exact ih (hstep s a (List.mem_cons_self a tl) h0)
      (fun s' b hb => hstep s' b (List.mem_cons_of_mem a hb))

/-- Elements of a keep-unless-filtered accumulation come from the seed
or the traversed list. -/
theorem mem_foldl_keep {α : Type _} {c : List α → α → Prop} [inst : ∀ a x, Decidable (c a x)] :
    ∀ {l acc : List α} {x : α},
      x ∈ l.foldl (fun a p => if c a p then a else a ++ [p]) acc → x ∈ acc ∨ x ∈ l := by
  intro l
  induction l with
  | nil => intro acc x hx; exact Or.inl hx
  | cons hd tl ih =>
    intro acc x hx
    rcases ih hx with h | h
    · have h2 : x ∈ if c acc hd then acc else acc ++ [hd] := h
      by_cases hc : c acc hd
      · rw [if_pos hc] at h2; exact Or.inl h2
      · rw [if_neg hc] at h2
        rcases List.mem_append.mp h2 with h' | h'
        · exact Or.inl h'
        · exact Or.inr (List.mem_cons.mpr (Or.inl (List.mem_singleton.mp h')))
    · exact Or.inr (List.mem_cons_of_mem hd h)

/-- Membership in an ordered integer partition list: exactly `e` parts,
all positive, summing to `d`. -/
theorem int_partition_ordered_wf :
    ∀ (e d : Nat) (x : List Nat), x ∈ int_partition_ordered d e →
      x.length = e ∧ (∀ a ∈ x, 1 ≤ a) ∧ x.sum = d := by
  intro e
  induction e with
  | zero =>
    intro d x hx
    simp only [int_partition_ordered] at hx
    by_cases hd : d = 0
    · rw [if_pos hd] at hx
      simp only [List.mem_singleton] at hx
      subst hx
      simp [hd]
    · rw [if_neg hd] at hx
      exact absurd hx (List.not_mem_nil x)
  | succ e' ih =>
    intro d x hx
    simp only [int_partition_ordered, List.mem_flatMap, List.mem_map] at hx
    obtain ⟨a, ha, t, ht, rfl⟩ := hx
    obtain ⟨hlen, hpos, hsum⟩ := ih (d - a) t ht
    rw [List.mem_range'_1] at ha
    refine ⟨by simp [hlen], ?_, ?_⟩
    · intro b hb
      rcases List.mem_cons.mp hb with rfl | hb'
      · exact ha.1
      · exact hpos b hb'
    · simp only [List.sum_cons, hsum]
      omega

/-- Membership in an unordered integer partition list: all parts
positive and bounded by `maxp`, summing to `n`. -/
theorem partsFuel_wf :
    ∀ (fuel n maxp : Nat) (x : List Nat), x ∈ partsFuel fuel n maxp →
      (∀ a ∈ x, 1 ≤ a ∧ a ≤ maxp) ∧ x.sum = n := by
  intro fuel
  induction fuel with
  | zero =>
    intro n maxp x hx
    match n, hx with
    | 0, hx =>
      simp only [partsFuel, List.mem_singleton] at hx
      subst hx
      exact ⟨by simp, rfl⟩
  | succ fuel' ih =>
    intro n maxp x hx
    match n, hx with
    | 0, hx =>
      simp only [partsFuel, List.mem_singleton] at hx
      subst hx
      exact ⟨by simp, rfl⟩
    | n' + 1, hx =>
      simp only [partsFuel, List.mem_flatMap, List.mem_map, List.mem_reverse,
        List.mem_range] at hx
      obtain ⟨a0, ha0, t, ht, rfl⟩ := hx
      obtain ⟨hb, hsum⟩ := ih (n' - a0) (a0 + 1) t ht
      have ha0' : a0 < min maxp (n' + 1) := ha0
      constructor
      · intro b hbmem
        rcases List.mem_cons.mp hbmem with rfl | hb'
        · omega
        · have := hb b hb'
          omega
      · simp only [List.sum_cons, hsum]
        omega

/-- Unordered partitions of `n`: positive parts summing to `n`. -/
theorem int_partition_unordered_wf {n : Nat} {x : List Nat}
    (hx : x ∈ int_partition_unordered n) : (∀ a ∈ x, 1 ≤ a ∧ a ≤ n) ∧ x.sum = n :=
  partsFuel_wf n n n x hx

/-- Accepted weightings are drawn from the partition stream: length `e`,
positive entries, sum between `e` and `dmax`. -/
theorem weightFold_wf {n : Nat} {es : List Edge} {e dmax : Nat} {part : List Nat}
    (hp : part ∈ weightFold n es e dmax) :
    part.length = e ∧ (∀ a ∈ part, 1 ≤ a) ∧ e ≤ part.sum ∧ part.sum ≤ dmax := by
  rcases mem_foldl_keep hp with h | h
  · exact absurd h (List.not_mem_nil part)
  · simp only [List.mem_flatMap, List.mem_range'_1] at h
    obtain ⟨d, ⟨hd1, hd2⟩, hpart⟩ := h
    obtain ⟨hlen, hpos, hsum⟩ := int_partition_ordered_wf e d part hpart
    have hle : part.length ≤ part.sum := by
      calc part.length = (part.map fun _ => 1).sum := by simp
      _ ≤ part.sum := by
          rw [show part.sum = (part.map id).sum by simp]
          exact List.sum_le_sum fun i hi => hpos i hi
    refine ⟨hlen, hpos, ?_, ?_⟩ <;> omega

/-- Well-formedness of every weighting list stored in `weights_d`. -/
theorem weightsD_wf {chiF : List Edge → Nat → Nat} {dmax nmax emax cmax n e : Nat}
    {wl : List (List Nat)} {part : List Nat}
    (hwl : wl ∈ weightsD chiF dmax nmax emax cmax n e) (hp : part ∈ wl) :
    part.length = e ∧ (∀ a ∈ part, 1 ≤ a) ∧ e ≤ part.sum ∧ part.sum ≤ dmax := by
  by_cases h21 : n = 2 ∧ e = 1
  · rw [weightsD, if_pos h21] at hwl
    simp only [List.mem_singleton] at hwl
    subst hwl
    simp only [List.mem_map, List.mem_range'_1] at hp
    obtain ⟨d, ⟨hd1, hd2⟩, rfl⟩ := hp
    refine ⟨by simp [h21.2], by simpa using hd1, by simp [h21.2]; omega, by simp; omega⟩
  · rw [weightsD, if_neg h21] at hwl
    simp only [List.mem_map] at hwl
    obtain ⟨gc, _, rfl⟩ := hwl
    exact weightFold_wf hp

/-- Bucket-key membership in the sorted key list. -/
theorem mem_allNE {nmax emax n e : Nat} (h : (n, e) ∈ allNE nmax emax) :
    2 ≤ n ∧ n ≤ nmax ∧ n - 1 ≤ e ∧ e ≤ emaxs emax n := by
  simp only [allNE, List.mem_flatMap, List.mem_map, esbyn, List.mem_range'_1] at h
  obtain ⟨n', hn', e', ⟨he1, he2⟩, heq⟩ := h
  have hn : n' = n := congrArg Prod.fst heq
  have he : e' = e := congrArg Prod.snd heq
  subst hn
  subst he
  refine ⟨by omega, by omega, he1, by omega⟩

/-- Edge lists are made of normalized in-range vertex pairs, without
duplicates. -/
def EdgesWf (n : Nat) (es : List Edge) : Prop :=
  (∀ ed ∈ es, ed.1 < ed.2 ∧ ed.2 < n) ∧ es.Nodup

/-- Base edges are the normalized in-range pairs. -/
theorem mem_baseEdges {n : Nat} {ed : Edge} :
    ed ∈ baseEdges n ↔ ed.1 < ed.2 ∧ ed.2 < n := by
  cases ed with
  | mk a b =>
    simp only [baseEdges, List.mem_flatMap, List.mem_map, List.mem_range, List.mem_range'_1]
    constructor
    · rintro ⟨i, hi, j, ⟨hj1, hj2⟩, heq⟩
      cases heq
      exact ⟨by omega, by omega⟩
    · rintro ⟨h1, h2⟩
      exact ⟨a, by omega, b, ⟨by omega, by omega⟩, rfl⟩

/-- Elements of an `_add_if_new` fold come from the seed bucket or are
accepted candidates: drawn from the stream, scored by the collaborator,
within the complexity bound. -/
theorem mem_foldl_addIfNew {chiF : List Edge → Nat → Nat} {cmax n : Nat} :
    ∀ {cands : List (List Edge)} {s0 : List (List Edge × Nat)} {gc : List Edge × Nat},
      gc ∈ cands.foldl (addIfNew chiF cmax n) s0 →
      gc ∈ s0 ∨ (gc.1 ∈ cands ∧ gc.2 = chiF gc.1 n ∧ gc.2 ≤ cmax) := by
  intro cands
  induction cands with
  | nil => intro s0 gc h; exact Or.inl h
  | cons hd tl ih =>
    intro s0 gc h
    rcases ih h with h' | h'
    · rw [addIfNew] at h'
      by_cases h1 : (s0.any fun gc' => isIso n hd gc'.1) = true
      · rw [if_pos h1] at h'; exact Or.inl h'
      · rw [if_neg h1] at h'
        by_cases h2 : cmax < chiF hd n
        · rw [if_pos h2] at h'; exact Or.inl h'
        · rw [if_neg h2] at h'
          rcases List.mem_append.mp h' with h'' | h''
          · exact Or.inl h''
          · right
            rcases List.mem_singleton.mp h'' with rfl
            exact ⟨List.mem_cons_self hd tl, rfl, by omega⟩
    · exact Or.inr ⟨List.mem_cons_of_mem hd h'.1, h'.2⟩

/-- Vertex-extension candidates of a well-formed `(n-1, e')` bucket are
well-formed `n`-vertex graphs with `e' + 1` edges. -/
theorem vertCands_wf {parent : List (List Edge × Nat)} {n e' : Nat}
    (hpar : ∀ gc ∈ parent, gc.1.length = e' ∧ EdgesWf (n - 1) gc.1) (hn : 3 ≤ n) :
    ∀ c ∈ vertCands parent n, c.length = e' + 1 ∧ EdgesWf n c := by
  intro c hc
  simp only [vertCands, List.mem_flatMap, List.mem_map, List.mem_range] at hc
  obtain ⟨sgc, hs, v, hv, rfl⟩ := hc
  obtain ⟨hslen, hsed, hsnd⟩ := hpar sgc hs
  refine ⟨by simp [hslen], ?_, ?_⟩
  · intro ed hed
    rcases List.mem_append.mp hed with h1 | h1
    · have := hsed ed h1
      omega
    · rcases List.mem_singleton.mp h1 with rfl
      exact ⟨by omega, by omega⟩
  · rw [List.nodup_append]
    refine ⟨hsnd, List.nodup_singleton _, ?_⟩
    intro ed hed
    have := hsed ed hed
    simp only [List.mem_singleton]
    intro hbad
    subst hbad
    omega

/-- Edge-extension candidates of a well-formed `(n, e')` bucket are
well-formed `n`-vertex graphs with `e' + 1` edges. -/
theorem edgeCands_wf {parent : List (List Edge × Nat)} {n e' : Nat}
    (hpar : ∀ gc ∈ parent, gc.1.length = e' ∧ EdgesWf n gc.1) :
    ∀ c ∈ edgeCands parent n, c.length = e' + 1 ∧ EdgesWf n c := by
  intro c hc
  simp only [edgeCands, List.mem_flatMap, List.mem_map, List.mem_filter] at hc
  obtain ⟨sgc, hs, ed0, ⟨hed0, hnotin⟩, rfl⟩ := hc
  obtain ⟨hslen, hsed, hsnd⟩ := hpar sgc hs
  refine ⟨by simp [hslen], ?_, ?_⟩
  · intro ed hed
    rcases List.mem_append.mp hed with h1 | h1
    · exact hsed ed h1
    · rcases List.mem_singleton.mp h1 with rfl
      exact mem_baseEdges.mp hed0
  · rw [List.nodup_append]
    refine ⟨hsnd, List.nodup_singleton _, ?_⟩
    intro ed hed
    simp only [List.mem_singleton]
    intro hbad
    subst hbad
    rw [Bool.not_eq_true', ← Bool.not_eq_true] at hnotin
    exact hnotin (List.elem_eq_true_of_mem hed)

/-- Well-formedness of every accepted simple graph: `e` edges,
normalized in-range duplicate-free edge list, complexity scored by the
collaborator and within `cmax`. -/
theorem simpleBucket_wf {chiF : List Edge → Nat → Nat} {nmax emax cmax : Nat} :
    ∀ {e n : Nat} {gc : List Edge × Nat}, gc ∈ simpleBucket chiF nmax emax cmax n e →
      gc.1.length = e ∧ EdgesWf n gc.1 ∧ gc.2 = chiF gc.1 n ∧ gc.2 ≤ cmax := by
  intro e
  induction e with
  | zero =>
    intro n gc h
    rw [simpleBucket, simpleBucketGo] at h
    by_cases hk : n < 2 ∨ nmax < n ∨ 0 < n - 1 ∨ emaxs emax n < 0
    · rw [if_pos hk] at h
      exact absurd h (List.not_mem_nil gc)
    · rw [if_neg hk] at h
      have hn2 : ¬ (n = 2) := by omega
      rw [if_neg hn2] at h
      exact absurd h (List.not_mem_nil gc)
  | succ e' ih =>
    intro n gc h
    rw [simpleBucket, simpleBucketGo] at h
    by_cases hk : n < 2 ∨ nmax < n ∨ e' + 1 < n - 1 ∨ emaxs emax n < e' + 1
    · rw [if_pos hk] at h
      exact absurd h (List.not_mem_nil gc)
    rw [if_neg hk] at h
    by_cases hn2 : n = 2
    · rw [if_pos hn2] at h
      subst hn2
      have he1 : e' + 1 = 1 := by
        have : emaxs emax 2 ≤ 1 := by
          simp only [emaxs]
          omega
        omega
      rw [addIfNew] at h
      simp only [List.any_nil, Bool.false_eq_true, if_false] at h
      by_cases hc : cmax < chiF [(0, 1)] 2
      · rw [if_pos hc] at h
        exact absurd h (List.not_mem_nil gc)
      · rw [if_neg hc] at h
        simp only [List.nil_append, List.mem_singleton] at h
        subst h
        refine ⟨by simp [he1], ⟨?_, by simp⟩, rfl, by omega⟩
        intro ed hed
        simp only [List.mem_singleton] at hed
        subst hed
        exact ⟨by omega, by omega⟩
    · rw [if_neg hn2] at h
      rcases mem_foldl_addIfNew h with h' | h'
      · exact absurd h' (List.not_mem_nil gc)
      obtain ⟨hmem, hchi, hle⟩ := h'
      have hwfc : gc.1.length = e' + 1 ∧ EdgesWf n gc.1 := by
        rcases List.mem_append.mp hmem with hva | heca
        · by_cases hv : n - 2 ≤ e' ∧ e' ≤ emaxs emax (n - 1)
          · rw [if_pos hv] at hva
            refine vertCands_wf ?_ (by omega) gc.1 hva
            intro sgc hs
            obtain ⟨h1, h2, _, _⟩ := ih hs
            exact ⟨h1, h2⟩
          · rw [if_neg hv] at hva
            exact absurd hva (List.not_mem_nil gc.1)
        · by_cases hec : n - 1 ≤ e' ∧ e' ≤ emaxs emax n
          · rw [if_pos hec] at heca
            refine edgeCands_wf ?_ gc.1 heca
            intro sgc hs
            obtain ⟨h1, h2, _, _⟩ := ih hs
            exact ⟨h1, h2⟩
          · rw [if_neg hec] at heca
            exact absurd heca (List.not_mem_nil gc.1)
      exact ⟨hwfc.1, hwfc.2, hchi, hle⟩

/-- A list of positive naturals has sum at least its length. -/
theorem length_le_sum_of_pos {l : List Nat} (h : ∀ a ∈ l, 1 ≤ a) : l.length ≤ l.sum := by
  induction l with
  | nil => simp
  | cons a tl ih =>
    simp only [List.length_cons, List.sum_cons]
    have h1 := h a (List.mem_cons_self a tl)
    have h2 := ih fun b hb => h b (List.mem_cons_of_mem a hb)
    omega

/-- Indexing into a one-element extension of a list. -/
theorem getElem?_snoc_eq_some {α : Type _} {l : List α} {x r : α} {j : Nat} :
    (l ++ [x])[j]? = some r ↔ l[j]? = some r ∨ (j = l.length ∧ r = x) := by
  constructor
  · intro h
    by_cases hj : j < l.length
    · rw [List.getElem?_append_left hj] at h
      exact Or.inl h
    · have hlen : j < l.length + 1 := by
        have := List.getElem?_eq_some.mp h
        simpa using this.1
      have hj' : j = l.length := by omega
      subst hj'
      rw [List.getElem?_concat_length] at h
      exact Or.inr ⟨rfl, (Option.some_inj.mp h).symm⟩
  · intro h
    rcases h with h | ⟨hj, hr⟩
    · have hj : j < l.length := (List.getElem?_eq_some.mp h).1
      rw [List.getElem?_append_left hj]
      exact h
    · subst hj
      subst hr
      exact List.getElem?_concat_length l _

/-- Lookup into a prepended dict binding. -/
theorem dictKs_cons {key : Nat × Nat} {v : Nat} {m : List ((Nat × Nat) × Nat)} {q : Nat × Nat} :
    dictKs ((key, v) :: m) q = if q = key then some v else dictKs m q := by
  by_cases h : q = key
  · simp [dictKs, List.lookup, h]
  · have hb : (q == key) = false := beq_eq_false_iff_ne.mpr h
    simp [dictKs, List.lookup, hb, h]

/-- Lookup into a prepended `(n,d,k)` dict binding. -/
theorem dictNdk_cons {key : Nat × Nat × Nat} {v : Nat} {m : List ((Nat × Nat × Nat) × Nat)}
    {q : Nat × Nat × Nat} :
    dictNdk ((key, v) :: m) q = if q = key then some v else dictNdk m q := by
  by_cases h : q = key
  · simp [dictNdk, List.lookup, h]
  · have hb : (q == key) = false := beq_eq_false_iff_ne.mpr h
    simp [dictNdk, List.lookup, hb, h]

/-- The connected-pass invariant, in the variant that holds between
individual weighting steps: rows created for the in-progress graph
(whose edge list, of length `pend`, is appended only after its weighting
loop) carry `g` equal to the current length of the flattened edge
array. All other clauses are stable facts about counters, rows, and the
two index dicts. -/
structure ConnInvAux (nmax dmax pend : Nat) (s : ConnOut) : Prop where
  hw : s.w = s.specs.length
  hi : s.i = s.specs.length
  hwts : s.wts.length = s.specs.length
  hg : s.g = s.edgesA.length
  hroww : ∀ (j : Nat) (r : SpecRow), s.specs[j]? = some r → r.w = (j : Int)
  hrowwt : ∀ (j : Nat) (r : SpecRow), s.specs[j]? = some r →
    ∃ wl, s.wts[j]? = some wl ∧ (wl.length : Int) = r.e ∧ (wl.sum : Int) = r.d
  hrowg : ∀ (j : Nat) (r : SpecRow), s.specs[j]? = some r → ∃ gi : Nat, r.g = (gi : Int) ∧
    ((∃ el, s.edgesA[gi]? = some el ∧ (el.length : Int) = r.e) ∨
      (gi = s.edgesA.length ∧ r.e = (pend : Int)))
  hrowb : ∀ (j : Nat) (r : SpecRow), s.specs[j]? = some r →
    2 ≤ r.n ∧ r.n ≤ (nmax : Int) ∧ r.n - 1 ≤ r.d ∧ r.d ≤ (dmax : Int) ∧ r.p = 1
  hks : ∀ p c, dictKs s.ks p = some c → 1 ≤ c ∧ 2 ≤ p.1 ∧ p.1 ≤ nmax ∧
    p.1 - 1 ≤ p.2 ∧ p.2 ≤ dmax ∧
    ∀ k, k < c → ∃ ind, dictNdk s.ndk2i (p.1, p.2, k) = some ind
  hndk : ∀ q ind, dictNdk s.ndk2i q = some ind → ind < s.specs.length ∧
    ∃ r, s.specs[ind]? = some r ∧ r.n = (q.1 : Int) ∧ r.d = (q.2.1 : Int)

/-- The connected-pass invariant between graph steps: every row's `g`
resolves inside the flattened edge array, to an edge list with the
row's edge count. -/
structure ConnInv (nmax dmax : Nat) (s : ConnOut) : Prop where
  hw : s.w = s.specs.length
  hi : s.i = s.specs.length
  hwts : s.wts.length = s.specs.length
  hg : s.g = s.edgesA.length
  hroww : ∀ (j : Nat) (r : SpecRow), s.specs[j]? = some r → r.w = (j : Int)
  hrowwt : ∀ (j : Nat) (r : SpecRow), s.specs[j]? = some r →
    ∃ wl, s.wts[j]? = some wl ∧ (wl.length : Int) = r.e ∧ (wl.sum : Int) = r.d
  hrowg : ∀ (j : Nat) (r : SpecRow), s.specs[j]? = some r → ∃ gi : Nat, ∃ el, r.g = (gi : Int) ∧
    s.edgesA[gi]? = some el ∧ (el.length : Int) = r.e
  hrowb : ∀ (j : Nat) (r : SpecRow), s.specs[j]? = some r →
    2 ≤ r.n ∧ r.n ≤ (nmax : Int) ∧ r.n - 1 ≤ r.d ∧ r.d ≤ (dmax : Int) ∧ r.p = 1
  hks : ∀ p c, dictKs s.ks p = some c → 1 ≤ c ∧ 2 ≤ p.1 ∧ p.1 ≤ nmax ∧
    p.1 - 1 ≤ p.2 ∧ p.2 ≤ dmax ∧
    ∀ k, k < c → ∃ ind, dictNdk s.ndk2i (p.1, p.2, k) = some ind
  hndk : ∀ q ind, dictNdk s.ndk2i q = some ind → ind < s.specs.length ∧
    ∃ r, s.specs[ind]? = some r ∧ r.n = (q.1 : Int) ∧ r.d = (q.2.1 : Int)

/-- The strict invariant entails the in-progress one for any pending
length. -/
theorem ConnInv.toAux {nmax dmax pend : Nat} {s : ConnOut} (h : ConnInv nmax dmax s) :
    ConnInvAux nmax dmax pend s where
  hw := h.hw
  hi := h.hi
  hwts := h.hwts
  hg := h.hg
  hroww := h.hroww
  hrowwt := h.hrowwt
  hrowg := fun j r hj => by
    obtain ⟨gi, el, h1, h2, h3⟩ := h.hrowg j r hj
    exact ⟨gi, h1, Or.inl ⟨el, h2, h3⟩⟩
  hrowb := h.hrowb
  hks := h.hks
  hndk := h.hndk

/-- One weighting step preserves the in-progress connected invariant
(the weighting is well-formed for the bucket key `(n, e)`). -/
theorem connWStep_inv {nmax dmax n e chi : Nat} {s : ConnOut} {wtng : List Nat}
    (hn2 : 2 ≤ n) (hnm : n ≤ nmax) (hne : n - 1 ≤ e)
    (hwlen : wtng.length = e) (hwpos : ∀ a ∈ wtng, 1 ≤ a) (hwsum : wtng.sum ≤ dmax)
    (hinv : ConnInvAux nmax dmax e s) :
    ConnInvAux nmax dmax e (connWStep n e chi s wtng) := by
  have hde : e ≤ wtng.sum := hwlen ▸ length_le_sum_of_pos hwpos
  have hspecs : (connWStep n e chi s wtng).specs = s.specs ++
      [⟨(n : Int), (e : Int), (wtng.sum : Int), ((dictKs s.ks (n, wtng.sum)).getD 0 : Int),
        (s.g : Int), (s.w : Int), (chi : Int), 1⟩] := rfl
  have hwts2 : (connWStep n e chi s wtng).wts = s.wts ++ [wtng] := rfl
  have hedges2 : (connWStep n e chi s wtng).edgesA = s.edgesA := rfl
  have hks2 : (connWStep n e chi s wtng).ks =
      ((n, wtng.sum), (dictKs s.ks (n, wtng.sum)).getD 0 + 1) :: s.ks := rfl
  have hndk2 : (connWStep n e chi s wtng).ndk2i =
      ((n, wtng.sum, (dictKs s.ks (n, wtng.sum)).getD 0), s.i) :: s.ndk2i := rfl
  have hg2 : (connWStep n e chi s wtng).g = s.g := rfl
  have hw2 : (connWStep n e chi s wtng).w = s.w + 1 := rfl
  have hi2 : (connWStep n e chi s wtng).i = s.i + 1 := rfl
  constructor
  · rw [hw2, hspecs, List.length_append, hinv.hw]
    rfl
  · rw [hi2, hspecs, List.length_append, hinv.hi]
    rfl
  · rw [hwts2, hspecs, List.length_append, List.length_append, hinv.hwts]
    rfl
  · rw [hg2, hedges2, hinv.hg]
  · intro j r hj
    rw [hspecs] at hj
    rcases getElem?_snoc_eq_some.mp hj with h | ⟨hjl, hr⟩
    · exact hinv.hroww j r h
    · subst hr
      simp only [hjl, hinv.hw]
  · intro j r hj
    rw [hspecs] at hj
    rw [hwts2]
    rcases getElem?_snoc_eq_some.mp hj with h | ⟨hjl, hr⟩
    · obtain ⟨wl, h1, h2, h3⟩ := hinv.hrowwt j r h
      exact ⟨wl, getElem?_snoc_eq_some.mpr (Or.inl h1), h2, h3⟩
    · subst hr
      refine ⟨wtng, getElem?_snoc_eq_some.mpr (Or.inr ⟨by rw [hjl, hinv.hwts], rfl⟩), ?_, rfl⟩
    
      simp [hwlen]
  · intro j r hj
    rw [hspecs] at hj
    rw [hedges2]
    rcases getElem?_snoc_eq_some.mp hj with h | ⟨hjl, hr⟩
    · exact hinv.hrowg j r h
    · subst hr
      exact ⟨s.g, rfl, Or.inr ⟨hinv.hg, rfl⟩⟩
  · intro j r hj
    rw [hspecs] at hj
    rcases getElem?_snoc_eq_some.mp hj with h | ⟨hjl, hr⟩
    · exact hinv.hrowb j r h
    · subst hr
      refine ⟨?_, ?_, ?_, ?_, rfl⟩
      · show (2 : Int) ≤ (n : Int)
        exact_mod_cast hn2
      · show (n : Int) ≤ (nmax : Int)
        exact_mod_cast hnm
      · show (n : Int) - 1 ≤ (wtng.sum : Int)
        omega
      · show (wtng.sum : Int) ≤ (dmax : Int)
        exact_mod_cast hwsum
  · intro p c hc
    rw [hks2, dictKs_cons] at hc
    by_cases hp : p = (n, wtng.sum)
    · rw [if_pos hp] at hc
      have hceq : c = (dictKs s.ks (n, wtng.sum)).getD 0 + 1 := (Option.some_inj.mp hc).symm
      subst hp
      refine ⟨by omega, hn2, hnm, by show n - 1 ≤ wtng.sum; omega, by show wtng.sum ≤ dmax; exact hwsum, ?_⟩
      intro k hk
      rw [hndk2, dictNdk_cons]
      by_cases hkk : k = (dictKs s.ks (n, wtng.sum)).getD 0
      · rw [if_pos (by rw [hkk])]
        exact ⟨s.i, rfl⟩
      · have hklt : k < (dictKs s.ks (n, wtng.sum)).getD 0 := by omega
        rw [if_neg (by
          intro hbad
          exact hkk (congrArg (fun t => t.2.2) hbad))]
        rcases holdks : dictKs s.ks (n, wtng.sum) with _ | c0
        · rw [holdks] at hklt
          simp at hklt
        · rw [holdks] at hklt
          simp only [Option.getD_some] at hklt
          exact (hinv.hks (n, wtng.sum) c0 holdks).2.2.2.2.2 k hklt
    · rw [if_neg hp] at hc
      obtain ⟨h1, h2, h3, h4, h5, h6⟩ := hinv.hks p c hc
      refine ⟨h1, h2, h3, h4, h5, ?_⟩
      intro k hk
      obtain ⟨ind, hind⟩ := h6 k hk
      rw [hndk2, dictNdk_cons]
      rw [if_neg (by
        intro hbad
        apply hp
        have e1 : p.1 = n := congrArg (fun t => t.1) hbad
        have e2 : p.2 = wtng.sum := congrArg (fun t => t.2.1) hbad
        exact Prod.ext e1 e2)]
      exact ⟨ind, hind⟩
  · intro q ind hq
    rw [hndk2, dictNdk_cons] at hq
    rw [hspecs]
    by_cases hqk : q = (n, wtng.sum, (dictKs s.ks (n, wtng.sum)).getD 0)
    · rw [if_pos hqk] at hq
      have hindeq : ind = s.i := (Option.some_inj.mp hq).symm
      subst hindeq
      subst hqk
      rw [List.length_append]
      refine ⟨by have hh := hinv.hi; simp only [List.length_singleton]; omega, ?_⟩
      exact ⟨_, getElem?_snoc_eq_some.mpr (Or.inr ⟨hinv.hi, rfl⟩), rfl, rfl⟩
    · rw [if_neg hqk] at hq
      obtain ⟨h1, r, h2, h3, h4⟩ := hinv.hndk q ind hq
      rw [List.length_append]
      exact ⟨by omega, r, getElem?_snoc_eq_some.mpr (Or.inl h2), h3, h4⟩

/-- A graph step (weighting loop followed by the edge-list append and
`g` increment) preserves the strict connected invariant. -/
theorem connGStep_inv {nmax dmax n e : Nat} {s : ConnOut}
    {x : (List Edge × Nat) × List (List Nat)}
    (hn2 : 2 ≤ n) (hnm : n ≤ nmax) (hne : n - 1 ≤ e)
    (hxlen : x.1.1.length = e)
    (hwl : ∀ part ∈ x.2, part.length = e ∧ (∀ a ∈ part, 1 ≤ a) ∧ part.sum ≤ dmax)
    (hinv : ConnInv nmax dmax s) : ConnInv nmax dmax (connGStep n e s x) := by
  have haux : ConnInvAux nmax dmax e (x.2.foldl (connWStep n e x.1.2) s) :=
    foldl_pres hinv.toAux (fun s' part hp hs' =>
      connWStep_inv hn2 hnm hne (hwl part hp).1 (hwl part hp).2.1 (hwl part hp).2.2 hs')
  constructor
  · exact haux.hw
  · exact haux.hi
  · exact haux.hwts
  · show (x.2.foldl (connWStep n e x.1.2) s).g + 1 =
      ((x.2.foldl (connWStep n e x.1.2) s).edgesA ++ [x.1.1]).length
    rw [haux.hg, List.length_append]
    rfl
  · exact haux.hroww
  · exact haux.hrowwt
  · intro j r hj
    obtain ⟨gi, h1, hcase⟩ := haux.hrowg j r hj
    rcases hcase with ⟨el, he1, he2⟩ | ⟨hgi, hre⟩
    · have hlt : gi < (x.2.foldl (connWStep n e x.1.2) s).edgesA.length :=
        (List.getElem?_eq_some.mp he1).1
      exact ⟨gi, el, h1, by
        show ((x.2.foldl (connWStep n e x.1.2) s).edgesA ++ [x.1.1])[gi]? = some el
        rw [List.getElem?_append_left hlt]
        exact he1, he2⟩
    · refine ⟨gi, x.1.1, h1, ?_, ?_⟩
      · show ((x.2.foldl (connWStep n e x.1.2) s).edgesA ++ [x.1.1])[gi]? = some x.1.1
        rw [hgi]
        exact List.getElem?_concat_length _ _
      · rw [hre, hxlen]
  · exact haux.hrowb
  · exact haux.hks
  · exact haux.hndk

/-- The start state satisfies the connected invariant. -/
theorem connInit_inv {nmax dmax : Nat} : ConnInv nmax dmax connInit := by
  constructor <;> first
    | rfl
    | (intro a b hab; exact absurd hab (by simp [connInit, dictKs, dictNdk, List.lookup]))

/-- A bucket step preserves the strict connected invariant. -/
theorem connNEStep_inv {chiF : List Edge → Nat → Nat} {dmax nmax emax cmax : Nat}
    {s : ConnOut} {ne : Nat × Nat}
    (hmem : ne ∈ allNE nmax emax) (hinv : ConnInv nmax dmax s) :
    ConnInv nmax dmax (connNEStep chiF dmax nmax emax cmax s ne) := by
  obtain ⟨hn2, hnm, hne, _⟩ := mem_allNE (show (ne.1, ne.2) ∈ allNE nmax emax from hmem)
  refine foldl_pres hinv (fun s' xp hxp hs' => ?_)
  have hz := List.mem_zip (show (xp.1, xp.2) ∈ _ from hxp)
  refine connGStep_inv hn2 hnm hne (simpleBucket_wf hz.1).1 (fun part hp => ?_) hs'
  obtain ⟨h1, h2, _, h4⟩ := weightsD_wf hz.2 hp
  exact ⟨h1, h2, h4⟩

/-- The whole connected pass establishes the connected invariant. -/
theorem connPhase_inv (chiF : List Edge → Nat → Nat) (dmax nmax emax cmax : Nat) :
    ConnInv nmax dmax (connPhase chiF dmax nmax emax cmax) :=
  foldl_pres connInit_inv (fun _s _ne hne hs => connNEStep_inv hne hs)

/-- C10: the w field of every connected row equals the row's own global
index (w and i start at 0 and are incremented together), and the
`(n,d,k) -> row` table resolves to a row whose w field is that index,
so the flattened weighting array is indexed directly by connected-row
position. -/
theorem C10_w_equals_row_index (chiF : List Edge → Nat → Nat) (dmax nmax emax cmax : Nat) :
    (∀ (j : Nat) (r : SpecRow),
        (generator chiF dmax nmax emax cmax).connected_specs[j]? = some r → r.w = (j : Int)) ∧
    (∀ (q : Nat × Nat × Nat) (ind : Nat),
        dictNdk (generator chiF dmax nmax emax cmax).ndk2i q = some ind →
        ∃ r, (generator chiF dmax nmax emax cmax).connected_specs[ind]? = some r ∧
          r.w = (ind : Int)) := by
  have hinv := connPhase_inv chiF dmax nmax emax cmax
  constructor
  · intro j r hj
    exact hinv.hroww j r hj
  · intro q ind hq
    obtain ⟨hlt, r, h1, _, _⟩ := hinv.hndk q ind hq
    exact ⟨r, h1, hinv.hroww ind r h1⟩

/-- C10, witness at dmax=2, nmax=3, emax=2, cmax=3 with collaborator
`chiN`: row 2 exists, and the theorem yields w = 2 for it. -/
theorem C10_w_equals_row_index_witness :
    ((generator chiN 2 3 2 3).connected_specs[2]? = some ⟨3, 2, 2, 0, 1, 2, 3, 1⟩) ∧
    (⟨3, 2, 2, 0, 1, 2, 3, 1⟩ : SpecRow).w = (2 : Int) :=
  ⟨by decide, (C10_w_equals_row_index chiN 2 3 2 3).1 2 _ (by decide)⟩

/-- C3, amended: in every connected row, w is the row's index in the
flattened weighting array (which is aligned with row position and holds
the row's weighting: its length is the row's e and its sum the row's
d), while g indexes the owning graph's position in the globally
flattened edges array — cumulative across buckets in sorted (n,e)
order, not restarting per bucket — pointing at an edge list with the
row's edge count. -/
theorem C3_g_w_flattened_indices (chiF : List Edge → Nat → Nat) (dmax nmax emax cmax : Nat) :
    ∀ (j : Nat) (r : SpecRow),
      (generator chiF dmax nmax emax cmax).connected_specs[j]? = some r →
      r.w = (j : Int) ∧
      (∃ wl, (generator chiF dmax nmax emax cmax).weights[j]? = some wl ∧
        (wl.length : Int) = r.e ∧ (wl.sum : Int) = r.d) ∧
      (∃ gi : Nat, ∃ el, r.g = (gi : Int) ∧
        (generator chiF dmax nmax emax cmax).edges[gi]? = some el ∧
        (el.length : Int) = r.e) := by
  have hinv := connPhase_inv chiF dmax nmax emax cmax
  intro j r hj
  exact ⟨hinv.hroww j r hj, hinv.hrowwt j r hj, hinv.hrowg j r hj⟩

/-- C3, witness for the amended statement: at dmax=2 (defaults nmax=3,
emax=2, cmax=3) with `chiN`, row 2 has w = 2 and g = 1 pointing at the
second entry of the flattened edges array. -/
theorem C3_g_w_flattened_indices_witness :
    ((generator chiN 2 3 2 3).connected_specs[2]? = some ⟨3, 2, 2, 0, 1, 2, 3, 1⟩) ∧
    ((⟨3, 2, 2, 0, 1, 2, 3, 1⟩ : SpecRow).w = (2 : Int) ∧
      (∃ wl, (generator chiN 2 3 2 3).weights[2]? = some wl ∧
        (wl.length : Int) = (⟨3, 2, 2, 0, 1, 2, 3, 1⟩ : SpecRow).e ∧
        (wl.sum : Int) = (⟨3, 2, 2, 0, 1, 2, 3, 1⟩ : SpecRow).d) ∧
      (∃ gi : Nat, ∃ el, (⟨3, 2, 2, 0, 1, 2, 3, 1⟩ : SpecRow).g = (gi : Int) ∧
        (generator chiN 2 3 2 3).edges[gi]? = some el ∧
        (el.length : Int) = (⟨3, 2, 2, 0, 1, 2, 3, 1⟩ : SpecRow).e)) :=
  ⟨by decide, C3_g_w_flattened_indices chiN 2 3 2 3 2 _ (by decide)⟩

/-- Characterization of the brute-force permutation list. -/
theorem permsList_mem {n : Nat} {p : List Nat} (hp : p ∈ permsList n) :
    p.length = n ∧ p.Nodup ∧ ∀ x ∈ p, x < n := by
  rw [permsList, List.mem_permutations'] at hp
  refine ⟨by rw [hp.length_eq, List.length_range], ?_, ?_⟩
  · exact hp.nodup_iff.mpr (List.nodup_range n)
  · intro x hx
    have := hp.mem_iff.mp hx
    rwa [List.mem_range] at this

/-- Conversely, any duplicate-free list of `n` values below `n` is a
member of the permutation list. -/
theorem mem_permsList_of {n : Nat} {p : List Nat}
    (hlen : p.length = n) (hnd : p.Nodup) (hbd : ∀ x ∈ p, x < n) : p ∈ permsList n := by
  rw [permsList, List.mem_permutations']
  apply List.perm_of_nodup_nodup_toFinset_eq hnd (List.nodup_range n)
  apply Finset.eq_of_subset_of_card_le
  · intro x hx
    rw [List.mem_toFinset] at hx ⊢
    rw [List.mem_range]
    exact hbd x hx
  · rw [List.toFinset_card_of_nodup hnd, List.toFinset_card_of_nodup (List.nodup_range n),
      List.length_range, hlen]

/-- Evaluating a permutation inside its domain. -/
theorem applyPerm_getElem {p : List Nat} {v : Nat} (h : v < p.length) : applyPerm p v = p[v] :=
  List.getD_eq_getElem p 0 h

/-- Permutations map the vertex range into itself. -/
theorem applyPerm_lt {n : Nat} {p : List Nat} (hp : p ∈ permsList n) {v : Nat} (hv : v < n) :
    applyPerm p v < n := by
  obtain ⟨hlen, _, hbd⟩ := permsList_mem hp
  have hv' : v < p.length := by omega
  rw [applyPerm_getElem hv']
  exact hbd _ (List.getElem_mem hv')

/-- The identity permutation. -/
theorem applyPerm_range {n v : Nat} (hv : v < n) : applyPerm (List.range n) v = v := by
  have h : v < (List.range n).length := by simpa using hv
  rw [applyPerm_getElem h, List.getElem_range]

/-- The identity permutation is in the permutation list. -/
theorem range_mem_permsList (n : Nat) : List.range n ∈ permsList n := by
  rw [permsList, List.mem_permutations']

/-- Mapping a permutation over the vertex range recovers the
permutation itself. -/
theorem map_applyPerm_range {n : Nat} {p : List Nat} (hlen : p.length = n) :
    (List.range n).map (applyPerm p) = p := by
  apply List.ext_getElem
  · simpa using hlen.symm
  · intro i h1 h2
    rw [List.getElem_map, List.getElem_range]
    exact applyPerm_getElem h2

/-- The inverse of a listed permutation. -/
theorem permsList_inverse {n : Nat} {p : List Nat} (hp : p ∈ permsList n) :
    ∃ q ∈ permsList n, (∀ v, v < n → applyPerm q (applyPerm p v) = v) ∧
      (∀ v, v < n → applyPerm p (applyPerm q v) = v) := by
  obtain ⟨hlen, hnd, hbd⟩ := permsList_mem hp
  have hmem : ∀ v, v < n → v ∈ p := by
    intro v hv
    have : v ∈ List.range n := List.mem_range.mpr hv
    exact ((List.mem_permutations'.mp hp).mem_iff).mpr this
  have hidxlt : ∀ v, v < n → List.indexOf v p < p.length := fun v hv =>
    List.indexOf_lt_length.mpr (hmem v hv)
  refine ⟨(List.range n).map (fun i => List.indexOf i p), ?_, ?_, ?_⟩
  · apply mem_permsList_of
    · simp
    · apply List.Nodup.map_on ?_ (List.nodup_range n)
      intro x hx y hy hxy
      rw [List.mem_range] at hx hy
      have h1 := List.indexOf_get (hidxlt x hx)
      have h2 := List.indexOf_get (hidxlt y hy)
      have hfin : (⟨List.indexOf x p, hidxlt x hx⟩ : Fin p.length) =
          ⟨List.indexOf y p, hidxlt y hy⟩ := Fin.ext hxy
      rw [hfin] at h1
      rw [h1] at h2
      exact h2
    · intro x hx
      simp only [List.mem_map, List.mem_range] at hx
      obtain ⟨i, hi, rfl⟩ := hx
      have := hidxlt i hi
      omega
  · intro v hv
    have hv' : v < p.length := by omega
    rw [applyPerm_getElem hv']
    have hlt : p[v] < n := hbd _ (List.getElem_mem hv')
    have hq : applyPerm ((List.range n).map fun i => List.indexOf i p) p[v] =
        List.indexOf p[v] p := by
      have h1 : p[v] < ((List.range n).map fun i => List.indexOf i p).length := by simpa using hlt
      rw [applyPerm_getElem h1, List.getElem_map, List.getElem_range]
    rw [hq]
    exact List.get_indexOf hnd ⟨v, hv'⟩
  · intro v hv
    have hq : applyPerm ((List.range n).map fun i => List.indexOf i p) v =
        List.indexOf v p := by
      have h1 : v < ((List.range n).map fun i => List.indexOf i p).length := by simpa using hv
      rw [applyPerm_getElem h1, List.getElem_map, List.getElem_range]
    rw [hq, applyPerm_getElem (hidxlt v hv)]
    exact List.indexOf_get (hidxlt v hv)

/-- The composite of two listed permutations. -/
theorem permsList_comp {n : Nat} {p q : List Nat} (hp : p ∈ permsList n) (hq : q ∈ permsList n) :
    ∃ r ∈ permsList n, ∀ v, v < n → applyPerm r v = applyPerm p (applyPerm q v) := by
  obtain ⟨hplen, _, _⟩ := permsList_mem hp
  obtain ⟨hqlen, _, _⟩ := permsList_mem hq
  refine ⟨q.map (applyPerm p), ?_, ?_⟩
  · rw [permsList, List.mem_permutations']
    have h1 : (q.map (applyPerm p)).Perm ((List.range n).map (applyPerm p)) :=
      (List.mem_permutations'.mp hq).map _
    rw [map_applyPerm_range hplen] at h1
    exact h1.trans (List.mem_permutations'.mp hp)
  · intro v hv
    have hv' : v < q.length := by omega
    have hv2 : v < (q.map (applyPerm p)).length := by simpa using hv'
    rw [applyPerm_getElem hv2, List.getElem_map, applyPerm_getElem hv']

/-- Pair normalization is symmetric. -/
theorem normPair_comm (a b : Nat) : normPair a b = normPair b a := by
  simp [normPair, Nat.min_comm, Nat.max_comm]

/-- Normalizing an already ordered pair is the identity. -/
theorem normPair_of_lt {a b : Nat} (h : a < b) : normPair a b = (a, b) := by
  simp [normPair, Nat.min_eq_left (Nat.le_of_lt h), Nat.max_eq_right (Nat.le_of_lt h)]

/-- A permutation image of a normalized pair. -/
theorem mapEdge_normPair (p : List Nat) (a b : Nat) :
    mapEdge p (normPair a b) = normPair (applyPerm p a) (applyPerm p b) := by
  rcases Nat.le_total a b with h | h
  · simp [normPair, mapEdge, Nat.min_eq_left h, Nat.max_eq_right h]
  · simp only [normPair, mapEdge, Nat.min_eq_right h, Nat.max_eq_left h]
    rw [Nat.min_comm, Nat.max_comm]

/-- Set-equality reading of `sameEdgeSet`. -/
theorem sameEdgeSet_iff {l1 l2 : List Edge} :
    sameEdgeSet l1 l2 = true ↔ ∀ x : Edge, x ∈ l1 ↔ x ∈ l2 := by
  simp only [sameEdgeSet, subsetB, Bool.and_eq_true, List.all_eq_true]
  constructor
  · intro ⟨h1, h2⟩ x
    constructor
    · intro hx
      exact List.elem_iff.mp (h1 x hx)
    · intro hx
      exact List.elem_iff.mp (h2 x hx)
  · intro h
    constructor
    · intro x hx
      exact List.elem_iff.mpr ((h x).mp hx)
    · intro x hx
      exact List.elem_iff.mpr ((h x).mpr hx)

/-- `sameEdgeSet` is symmetric. -/
theorem sameEdgeSet_comm {l1 l2 : List Edge} (h : sameEdgeSet l1 l2 = true) :
    sameEdgeSet l2 l1 = true :=
  sameEdgeSet_iff.mpr fun x => (sameEdgeSet_iff.mp h x).symm

/-- `sameEdgeSet` transports along any edge map. -/
theorem sameEdgeSet_map {l1 l2 : List Edge} (f : Edge → Edge)
    (h : sameEdgeSet l1 l2 = true) : sameEdgeSet (l1.map f) (l2.map f) = true := by
  rw [sameEdgeSet_iff] at h ⊢
  intro x
  simp only [List.mem_map]
  constructor
  · rintro ⟨a, ha, rfl⟩
    exact ⟨a, (h a).mp ha, rfl⟩
  · rintro ⟨a, ha, rfl⟩
    exact ⟨a, (h a).mpr ha, rfl⟩

/-- Cancelling a permutation with its inverse on a normalized in-range
edge. -/
theorem mapEdge_inv_cancel {n : Nat} {p q : List Nat}
    (hpq : ∀ v, v < n → applyPerm q (applyPerm p v) = v) {ed : Edge}
    (h1 : ed.1 < ed.2) (h2 : ed.2 < n) : mapEdge q (mapEdge p ed) = ed := by
  cases ed with
  | mk a b =>
    simp only at h1 h2
    have hsh : mapEdge p (a, b) = normPair (applyPerm p a) (applyPerm p b) := rfl
    rw [hsh, mapEdge_normPair, hpq a (by omega), hpq b (by omega), normPair_of_lt h1]

/-- Composing edge maps of composable permutations on an in-range edge. -/
theorem mapEdge_comp_eq {n : Nat} {p q r : List Nat}
    (hcomp : ∀ v, v < n → applyPerm r v = applyPerm p (applyPerm q v)) {ed : Edge}
    (h1 : ed.1 < n) (h2 : ed.2 < n) : mapEdge r ed = mapEdge p (mapEdge q ed) := by
  cases ed with
  | mk a b =>
    simp only at h1 h2
    have hsh : mapEdge q (a, b) = normPair (applyPerm q a) (applyPerm q b) := rfl
    rw [hsh, mapEdge_normPair]
    show normPair (applyPerm r a) (applyPerm r b) = _
    rw [hcomp a h1, hcomp b h2]

/-- The isomorphism oracle is reflexive on well-formed edge lists. -/
theorem isIso_refl {n : Nat} {es : List Edge}
    (hwf : ∀ ed ∈ es, ed.1 < ed.2 ∧ ed.2 < n) : isIso n es es = true := by
  rw [isIso, List.any_eq_true]
  refine ⟨List.range n, range_mem_permsList n, ?_⟩
  have hmap : es.map (mapEdge (List.range n)) = es := by
    rw [show es = es.map id by simp]
    rw [List.map_map]
    apply List.map_congr_left
    intro ed hed
    obtain ⟨hlt, hn⟩ := hwf ed (by simpa using hed)
    cases ed with
    | mk a b =>
      show mapEdge (List.range n) (a, b) = (a, b)
      have : mapEdge (List.range n) (a, b) = normPair (applyPerm (List.range n) a)
          (applyPerm (List.range n) b) := rfl
      rw [this, applyPerm_range (by simp at hlt hn; omega), applyPerm_range (by simp at hn; omega)]
      exact normPair_of_lt hlt
  rw [hmap]
  exact sameEdgeSet_iff.mpr fun x => Iff.rfl

/-- The isomorphism oracle is symmetric (on a well-formed left graph). -/
theorem isIso_symm {n : Nat} {es1 es2 : List Edge}
    (hwf1 : ∀ ed ∈ es1, ed.1 < ed.2 ∧ ed.2 < n)
    (h : isIso n es1 es2 = true) : isIso n es2 es1 = true := by
  rw [isIso, List.any_eq_true] at h ⊢
  obtain ⟨p, hp, hsame⟩ := h
  obtain ⟨q, hq, hqp, _hpq⟩ := permsList_inverse hp
  refine ⟨q, hq, ?_⟩
  have hcancel : (es1.map (mapEdge p)).map (mapEdge q) = es1 := by
    rw [List.map_map]
    rw [show es1 = es1.map id by simp]
    rw [List.map_map]
    apply List.map_congr_left
    intro ed hed
    obtain ⟨hlt, hn⟩ := hwf1 ed (by simpa using hed)
    exact mapEdge_inv_cancel hqp hlt hn
  have h2 := sameEdgeSet_map (mapEdge q) hsame
  rw [hcancel] at h2
  exact sameEdgeSet_comm h2

/-- `sameEdgeSet` is transitive. -/
theorem sameEdgeSet_trans {a b c : List Edge} (h1 : sameEdgeSet a b = true)
    (h2 : sameEdgeSet b c = true) : sameEdgeSet a c = true :=
  sameEdgeSet_iff.mpr fun x => (sameEdgeSet_iff.mp h1 x).trans (sameEdgeSet_iff.mp h2 x)

/-- The isomorphism oracle is transitive (on a well-formed left graph). -/
theorem isIso_trans {n : Nat} {es1 es2 es3 : List Edge}
    (hwf1 : ∀ ed ∈ es1, ed.1 < ed.2 ∧ ed.2 < n)
    (h12 : isIso n es1 es2 = true) (h23 : isIso n es2 es3 = true) :
    isIso n es1 es3 = true := by
  rw [isIso, List.any_eq_true] at h12 h23 ⊢
  obtain ⟨p, hp, hp12⟩ := h12
  obtain ⟨r, hr, hr23⟩ := h23
  obtain ⟨t, ht, htc⟩ := permsList_comp hr hp
  refine ⟨t, ht, ?_⟩
  have hmt : es1.map (mapEdge t) = (es1.map (mapEdge p)).map (mapEdge r) := by
    rw [List.map_map]
    apply List.map_congr_left
    intro ed hed
    obtain ⟨hlt, hn⟩ := hwf1 ed hed
    exact mapEdge_comp_eq htc (by omega) hn
  rw [hmt]
  exact sameEdgeSet_trans (sameEdgeSet_map (mapEdge r) hp12) hr23

/-- Characterization of the edge-colored oracle. -/
theorem colorIso_iff {n : Nat} {es : List Edge} {c1 c2 : List Nat} :
    colorIso n es c1 c2 = true ↔
    ∃ p ∈ permsList n, sameEdgeSet (es.map (mapEdge p)) es = true ∧
      ∀ idx, idx < es.length →
        c2.getD (edgeIdx (mapEdge p (es.getD idx (0, 0))) es) 0 = c1.getD idx 0 := by
  simp only [colorIso, List.any_eq_true, Bool.and_eq_true, List.all_eq_true, List.mem_range,
    beq_iff_eq]

/-- `edgeIdx` of a list element at a duplicate-free position. -/
theorem edgeIdx_getElem {es : List Edge} (hnd : es.Nodup) :
    ∀ {i : Nat} (hi : i < es.length), edgeIdx es[i] es = i := by
  induction es with
  | nil => intro i hi; simp at hi
  | cons e t ih =>
    intro i hi
    match i with
    | 0 => simp [edgeIdx]
    | i' + 1 =>
      have hi' : i' < t.length := by simpa using Nat.lt_of_succ_lt_succ hi
      have hne : e ≠ t.get ⟨i', hi'⟩ := by
        intro hbad
        have hmem : e ∈ t := hbad ▸ (t.get_mem i' hi')
        exact (List.nodup_cons.mp hnd).1 hmem
      show edgeIdx (e :: t)[i' + 1] (e :: t) = i' + 1
      rw [show (e :: t)[i' + 1] = t.get ⟨i', hi'⟩ from rfl]
      rw [edgeIdx, if_neg hne, show t.get ⟨i', hi'⟩ = t[i'] from rfl,
        ih (List.nodup_cons.mp hnd).2 hi']

/-- The edge-colored oracle is symmetric on a well-formed underlying
graph. -/
theorem colorIso_symm {n : Nat} {es : List Edge} {c1 c2 : List Nat}
    (hwf : ∀ ed ∈ es, ed.1 < ed.2 ∧ ed.2 < n) (hnd : es.Nodup)
    (h : colorIso n es c1 c2 = true) : colorIso n es c2 c1 = true := by
  rw [colorIso_iff] at h ⊢
  obtain ⟨p, hp, hsame, hcol⟩ := h
  obtain ⟨q, hq, hqp, _⟩ := permsList_inverse hp
  have hcancel : ∀ ed ∈ es, mapEdge q (mapEdge p ed) = ed := fun ed hed =>
    mapEdge_inv_cancel hqp (hwf ed hed).1 (hwf ed hed).2
  refine ⟨q, hq, ?_, ?_⟩
  · have h2 := sameEdgeSet_map (mapEdge q) hsame
    have h3 : (es.map (mapEdge p)).map (mapEdge q) = es := by
      rw [List.map_map, show es = es.map id by simp, List.map_map]
      exact List.map_congr_left fun ed hed => hcancel ed (by simpa using hed)
    rw [h3] at h2
    exact sameEdgeSet_comm h2
  · intro idx hidx
    have hed : es.getD idx (0, 0) = es[idx] := List.getD_eq_getElem es (0, 0) hidx
    have hmem : es[idx] ∈ es.map (mapEdge p) :=
      (sameEdgeSet_iff.mp hsame es[idx]).mpr (List.getElem_mem hidx)
    obtain ⟨ed0, hed0mem, hed0eq⟩ := List.mem_map.mp hmem
    obtain ⟨i0, hi0, hi0eq⟩ := List.mem_iff_getElem.mp hed0mem
    have hq1 : mapEdge q es[idx] = ed0 := by
      rw [← hed0eq]
      exact hcancel ed0 hed0mem
    have hio : edgeIdx ed0 es = i0 := by
      rw [← hi0eq]
      exact edgeIdx_getElem hnd hi0
    have h5 := hcol i0 hi0
    have hped0 : mapEdge p (es.getD i0 (0, 0)) = es[idx] := by
      rw [List.getD_eq_getElem es (0, 0) hi0, hi0eq, hed0eq]
    rw [hped0] at h5
    have hidxself : edgeIdx es[idx] es = idx := edgeIdx_getElem hnd hidx
    rw [hidxself] at h5
    rw [hed, hq1, hio]
    exact h5.symm

/-- The two-sided non-isomorphism relation used for bucket entries. -/
def NonIso (n : Nat) (gc1 gc2 : List Edge × Nat) : Prop :=
  isIso n gc1.1 gc2.1 = false ∧ isIso n gc2.1 gc1.1 = false

/-- `_add_if_new` preserves well-formedness plus pairwise
non-isomorphism of the bucket. -/
theorem addIfNew_pairwise {chiF : List Edge → Nat → Nat} {cmax n : Nat}
    {b : List (List Edge × Nat)} {cand : List Edge}
    (hcand : ∀ ed ∈ cand, ed.1 < ed.2 ∧ ed.2 < n)
    (hbwf : ∀ gc ∈ b, ∀ ed ∈ gc.1, ed.1 < ed.2 ∧ ed.2 < n)
    (hpw : List.Pairwise (NonIso n) b) :
    (∀ gc ∈ addIfNew chiF cmax n b cand, ∀ ed ∈ gc.1, ed.1 < ed.2 ∧ ed.2 < n) ∧
      List.Pairwise (NonIso n) (addIfNew chiF cmax n b cand) := by
  rw [addIfNew]
  by_cases h1 : (b.any fun gc => isIso n cand gc.1) = true
  · rw [if_pos h1]
    exact ⟨hbwf, hpw⟩
  · rw [if_neg h1]
    by_cases h2 : cmax < chiF cand n
    · rw [if_pos h2]
      exact ⟨hbwf, hpw⟩
    · rw [if_neg h2]
      rw [List.any_eq_true] at h1
      push_neg at h1
      constructor
      · intro gc hgc
        rcases List.mem_append.mp hgc with h | h
        · exact hbwf gc h
        · rcases List.mem_singleton.mp h with rfl
          exact hcand
      · rw [List.pairwise_append]
        refine ⟨hpw, List.pairwise_singleton _ _, ?_⟩
        intro gc hgc x hx
        rcases List.mem_singleton.mp hx with rfl
        have hfc : isIso n cand gc.1 = false :=
          Bool.not_eq_true _ ▸ (by simpa using h1 gc hgc)
        refine ⟨?_, hfc⟩
        rw [← Bool.not_eq_true]
        intro hgi
        rw [← Bool.not_eq_true] at hfc
        exact hfc (isIso_symm (hbwf gc hgc) hgi)

/-- Every bucket is pairwise non-isomorphic. -/
theorem simpleBucket_pairwise (chiF : List Edge → Nat → Nat) (nmax emax cmax n e : Nat) :
    List.Pairwise (NonIso n) (simpleBucket chiF nmax emax cmax n e) := by
  have main : ∀ e n, List.Pairwise (NonIso n) (simpleBucket chiF nmax emax cmax n e) := by
    intro e
    match e with
    | 0 =>
      intro n
      rw [simpleBucket, simpleBucketGo]
      by_cases hk : n < 2 ∨ nmax < n ∨ 0 < n - 1 ∨ emaxs emax n < 0
      · rw [if_pos hk]; exact List.Pairwise.nil
      · rw [if_neg hk]
        have hn2 : n = 2 := by omega
        rw [if_pos hn2, hn2]
        rw [addIfNew]
        simp only [List.any_nil, Bool.false_eq_true, if_false]
        by_cases hc : cmax < chiF [(0, 1)] 2
        · rw [if_pos hc]; exact List.Pairwise.nil
        · rw [if_neg hc]
          exact List.pairwise_singleton _ _
    | e' + 1 =>
      intro n
      rw [simpleBucket, simpleBucketGo]
      by_cases hk : n < 2 ∨ nmax < n ∨ e' + 1 < n - 1 ∨ emaxs emax n < e' + 1
      · rw [if_pos hk]; exact List.Pairwise.nil
      · rw [if_neg hk]
        by_cases hn2 : n = 2
        · rw [if_pos hn2, hn2]
          rw [addIfNew]
          simp only [List.any_nil, Bool.false_eq_true, if_false]
          by_cases hc : cmax < chiF [(0, 1)] 2
          · rw [if_pos hc]; exact List.Pairwise.nil
          · rw [if_neg hc]
            exact List.pairwise_singleton _ _
        · rw [if_neg hn2]
          have hcands : ∀ c ∈ ((if n - 2 ≤ e' ∧ e' ≤ emaxs emax (n - 1) then
              vertCands (simpleBucketGo chiF nmax emax cmax e' (n - 1)) n else []) ++
              (if n - 1 ≤ e' ∧ e' ≤ emaxs emax n then
              edgeCands (simpleBucketGo chiF nmax emax cmax e' n) n else [])),
              ∀ ed ∈ c, ed.1 < ed.2 ∧ ed.2 < n := by
            intro c hc
            rcases List.mem_append.mp hc with h | h
            · by_cases hg : n - 2 ≤ e' ∧ e' ≤ emaxs emax (n - 1)
              · rw [if_pos hg] at h
                have := (vertCands_wf (fun gc hgc =>
                  ⟨(simpleBucket_wf hgc).1, (simpleBucket_wf hgc).2.1⟩) (by omega) c h).2
                exact this.1
              · rw [if_neg hg] at h
                exact absurd h (List.not_mem_nil c)
            · by_cases hg : n - 1 ≤ e' ∧ e' ≤ emaxs emax n
              · rw [if_pos hg] at h
                have := (edgeCands_wf (fun gc hgc =>
                  ⟨(simpleBucket_wf hgc).1, (simpleBucket_wf hgc).2.1⟩) c h).2
                exact this.1
              · rw [if_neg hg] at h
                exact absurd h (List.not_mem_nil c)
          have hres := @foldl_pres (List Edge) (List (List Edge × Nat))
            (fun b => (∀ gc ∈ b, ∀ ed ∈ gc.1, ed.1 < ed.2 ∧ ed.2 < n) ∧
              List.Pairwise (NonIso n) b)
            (addIfNew chiF cmax n) _ []
            ⟨by intro gc hgc; exact absurd hgc (List.not_mem_nil gc), List.Pairwise.nil⟩
            (fun b c hcmem hb => addIfNew_pairwise (hcands c hcmem) hb.1 hb.2)
          exact hres.2
  exact main e n

/-- C4: within every bucket (n,e), no two accepted simple graphs are
isomorphic; every stored complexity is the collaborator's score and is
at most cmax; and a candidate whose complexity exceeds cmax leaves the
bucket unchanged (it is stored nowhere). -/
theorem C4_bucket_invariants (chiF : List Edge → Nat → Nat) (nmax emax cmax : Nat) :
    (∀ (n e i j : Nat) (g1 g2 : List Edge × Nat),
      (simpleBucket chiF nmax emax cmax n e)[i]? = some g1 →
      (simpleBucket chiF nmax emax cmax n e)[j]? = some g2 → i ≠ j →
      isIso n g1.1 g2.1 = false) ∧
    (∀ (n e : Nat), ∀ gc ∈ simpleBucket chiF nmax emax cmax n e,
      gc.2 = chiF gc.1 n ∧ gc.2 ≤ cmax) ∧
    (∀ (n : Nat) (bucket : List (List Edge × Nat)) (cand : List Edge),
      cmax < chiF cand n → addIfNew chiF cmax n bucket cand = bucket) := by
  refine ⟨?_, ?_, ?_⟩
  · intro n e i j g1 g2 h1 h2 hij
    have hpw := (List.pairwise_iff_getElem.mp (simpleBucket_pairwise chiF nmax emax cmax n e))
    have hi := (List.getElem?_eq_some.mp h1).1
    have hj := (List.getElem?_eq_some.mp h2).1
    have hv1 : (simpleBucket chiF nmax emax cmax n e)[i] = g1 := (List.getElem?_eq_some.mp h1).2
    have hv2 : (simpleBucket chiF nmax emax cmax n e)[j] = g2 := (List.getElem?_eq_some.mp h2).2
    rcases Nat.lt_or_ge i j with hlt | hge
    · have := hpw i j hi hj hlt
      rw [hv1, hv2] at this
      exact this.1
    · have hlt : j < i := by omega
      have := hpw j i hj hi hlt
      rw [hv1, hv2] at this
      exact this.2
  · intro n e gc hgc
    exact ⟨(simpleBucket_wf hgc).2.2.1, (simpleBucket_wf hgc).2.2.2⟩
  · intro n bucket cand hc
    rw [addIfNew]
    by_cases h1 : (bucket.any fun gc => isIso n cand gc.1) = true
    · rw [if_pos h1]
    · rw [if_neg h1, if_pos hc]

/-- C4, witness at chiN, nmax=4, emax=3, cmax=4: bucket (4,3) holds two
graphs (the star and the path), which the theorem shows non-isomorphic
and complexity-bounded; a candidate scored above cmax is dropped. -/
theorem C4_bucket_invariants_witness :
    isIso 4 ([(0, 1), (0, 2), (0, 3)], 4).1 ([(0, 1), (0, 2), (1, 3)], 4).1 = false ∧
    (([(0, 1), (0, 2), (0, 3)], 4).2 = chiN [(0, 1), (0, 2), (0, 3)] 4 ∧
      ([(0, 1), (0, 2), (0, 3)], 4).2 ≤ 4) ∧
    addIfNew chiN 2 3 [] [(0, 1), (0, 2)] = [] :=
  ⟨(C4_bucket_invariants chiN 4 3 4).1 4 3 0 1 _ _ (by decide) (by decide) (by decide),
   (C4_bucket_invariants chiN 4 3 4).2.1 4 3 _ (by decide),
   (C4_bucket_invariants chiN 4 3 2).2.2 3 [] [(0, 1), (0, 2)] (by decide)⟩

/-- Accepted weightings of one graph are pairwise
non-edge-colored-isomorphic. -/
theorem weightFold_pairwise {n : Nat} (e dmax : Nat) {es : List Edge}
    (hwf : ∀ ed ∈ es, ed.1 < ed.2 ∧ ed.2 < n) (hnd : es.Nodup) :
    List.Pairwise (fun p1 p2 => colorIso n es p1 p2 = false ∧ colorIso n es p2 p1 = false)
      (weightFold n es e dmax) := by
  rw [weightFold]
  have hres := @foldl_pres (List Nat) (List (List Nat))
    (fun acc => List.Pairwise
      (fun p1 p2 => colorIso n es p1 p2 = false ∧ colorIso n es p2 p1 = false) acc)
    (fun acc part => if acc.any fun wtng => colorIso n es wtng part then acc else acc ++ [part])
    ((List.range' e (dmax + 1 - e)).flatMap fun d => int_partition_ordered d e) []
    List.Pairwise.nil ?_
  · exact hres
  · intro acc part _hmem hacc
    show List.Pairwise (fun p1 p2 => colorIso n es p1 p2 = false ∧ colorIso n es p2 p1 = false)
      (if (acc.any fun wtng => colorIso n es wtng part) = true then acc else acc ++ [part])
    by_cases h1 : (acc.any fun wtng => colorIso n es wtng part) = true
    · rw [if_pos h1]; exact hacc
    · rw [if_neg h1]
      rw [List.any_eq_true] at h1
      push_neg at h1
      rw [List.pairwise_append]
      refine ⟨hacc, List.pairwise_singleton _ _, ?_⟩
      intro w hw x hx
      rcases List.mem_singleton.mp hx with rfl
      have hfc : colorIso n es w x = false := Bool.not_eq_true _ ▸ (by simpa using h1 w hw)
      refine ⟨hfc, ?_⟩
      rw [← Bool.not_eq_true]
      intro hxw
      rw [← Bool.not_eq_true] at hfc
      exact hfc (colorIso_symm hwf hnd hxw)

/-- A one-edge graph admits no color isomorphism between different
single colors. -/
theorem colorIso_single {n : Nat} {ed : Edge} {c1 c2 : List Nat}
    (h : colorIso n [ed] c1 c2 = true) : c2.getD 0 0 = c1.getD 0 0 := by
  rw [colorIso_iff] at h
  obtain ⟨p, _hp, hsame, hcol⟩ := h
  have h0 := hcol 0 (by simp)
  have hmem : mapEdge p ed ∈ [ed] :=
    (sameEdgeSet_iff.mp hsame (mapEdge p ed)).mp (by simp)
  have heq : mapEdge p ed = ed := by simpa using hmem
  have hd : ([ed].getD 0 (0, 0)) = ed := rfl
  rw [hd, heq] at h0
  simpa [edgeIdx] using h0

/-- Any entry in the base bucket `(2, e)` is the unique base graph. -/
theorem simpleBucket_two {chiF : List Edge → Nat → Nat} {nmax emax cmax e i : Nat}
    {gc : List Edge × Nat}
    (h : (simpleBucket chiF nmax emax cmax 2 e)[i]? = some gc) : gc.1 = [(0, 1)] := by
  rw [simpleBucket, simpleBucketGo.eq_def] at h
  dsimp only at h
  by_cases hk : 2 < 2 ∨ nmax < 2 ∨ e < 2 - 1 ∨ emaxs emax 2 < e
  · rw [if_pos hk] at h
    simp at h
  · rw [if_neg hk, if_pos rfl, addIfNew] at h
    simp only [List.any_nil, Bool.false_eq_true, if_false] at h
    by_cases hc : cmax < chiF [(0, 1)] 2
    · rw [if_pos hc] at h
      simp at h
    · rw [if_neg hc] at h
      match i, h with
      | 0, h =>
        have : gc = ([(0, 1)], chiF [(0, 1)] 2) := by simpa using h.symm
        rw [this]
      | i2 + 1, h => simp at h

/-- C5: every accepted weighting of a graph with e edges has exactly e
entries, all at least 1, with sum d satisfying e ≤ d ≤ dmax; no two
accepted weightings of the same graph are edge-colored-isomorphic; and
for n=2, e=1 the stored weighting list is exactly the one-edge
weightings (d,) for d in [1, dmax]. -/
theorem C5_weighting_invariants (chiF : List Edge → Nat → Nat) (dmax nmax emax cmax : Nat) :
    (∀ (n e : Nat) (wl : List (List Nat)) (part : List Nat),
      wl ∈ weightsD chiF dmax nmax emax cmax n e → part ∈ wl →
      part.length = e ∧ (∀ a ∈ part, 1 ≤ a) ∧ e ≤ part.sum ∧ part.sum ≤ dmax) ∧
    (∀ (n e i j1 j2 : Nat) (gc : List Edge × Nat) (wl : List (List Nat)) (p1 p2 : List Nat),
      (simpleBucket chiF nmax emax cmax n e)[i]? = some gc →
      (weightsD chiF dmax nmax emax cmax n e)[i]? = some wl →
      wl[j1]? = some p1 → wl[j2]? = some p2 → j1 ≠ j2 →
      colorIso n gc.1 p1 p2 = false) ∧
    weightsD chiF dmax nmax emax cmax 2 1 = [(List.range' 1 dmax).map fun d => [d]] := by
  refine ⟨?_, ?_, ?_⟩
  · intro n e wl part hwl hp
    exact weightsD_wf hwl hp
  · intro n e i j1 j2 gc wl p1 p2 hgc hwl hp1 hp2 hne
    by_cases h21 : n = 2 ∧ e = 1
    · obtain ⟨rfl, rfl⟩ := h21
      rw [weightsD] at hwl
      rw [if_pos ⟨rfl, rfl⟩] at hwl
      have hwl2 : wl = (List.range' 1 dmax).map fun d => [d] := by
        match i, hwl with
        | 0, hwl => simpa using hwl.symm
        | i2 + 1, hwl => simp at hwl
      subst hwl2
      rw [List.getElem?_map] at hp1 hp2
      have hb1 : j1 < (List.range' 1 dmax).length := by
        rcases hj : (List.range' 1 dmax)[j1]? with _ | v
        · rw [hj] at hp1; simp at hp1
        · exact (List.getElem?_eq_some.mp hj).1
      have hb2 : j2 < (List.range' 1 dmax).length := by
        rcases hj : (List.range' 1 dmax)[j2]? with _ | v
        · rw [hj] at hp2; simp at hp2
        · exact (List.getElem?_eq_some.mp hj).1
      have hv1 : p1 = [1 + j1] := by
        rw [List.getElem?_eq_getElem hb1] at hp1
        simp at hp1
        exact hp1.symm
      have hv2 : p2 = [1 + j2] := by
        rw [List.getElem?_eq_getElem hb2] at hp2
        simp at hp2
        exact hp2.symm
      rw [simpleBucket_two hgc, hv1, hv2]
      rw [← Bool.not_eq_true]
      intro hbad
      have := colorIso_single hbad
      simp [List.getD] at this
      omega
    · rw [weightsD, if_neg h21, List.getElem?_map, hgc] at hwl
      simp at hwl
      subst hwl
      have hwf : ∀ ed ∈ gc.1, ed.1 < ed.2 ∧ ed.2 < n := by
        have := (simpleBucket_wf (List.getElem?_mem hgc)).2.1
        exact this.1
      have hnd : gc.1.Nodup := (simpleBucket_wf (List.getElem?_mem hgc)).2.1.2
      have hpw := List.pairwise_iff_getElem.mp (weightFold_pairwise e dmax hwf hnd)
      have hj1 := (List.getElem?_eq_some.mp hp1).1
      have hj2 := (List.getElem?_eq_some.mp hp2).1
      have hv1 := (List.getElem?_eq_some.mp hp1).2
      have hv2 := (List.getElem?_eq_some.mp hp2).2
      rcases Nat.lt_or_ge j1 j2 with hlt | hge
      · have := hpw j1 j2 hj1 hj2 hlt
        rw [hv1, hv2] at this
        exact this.1
      · have hlt2 : j2 < j1 := by omega
        have := hpw j2 j1 hj2 hj1 hlt2
        rw [hv1, hv2] at this
        exact this.2
  · rw [weightsD, if_pos ⟨rfl, rfl⟩]

/-- C5, witness at chiN, dmax=2, nmax=3, emax=2, cmax=3: the weighting
[1, 1] of the 3-vertex path has 2 positive entries summing within
bounds, the two one-edge weightings (1) and (2) of the base graph are
not edge-colored-isomorphic, and the (2,1) weighting list is exactly
[[1],[2]]. -/
theorem C5_weighting_invariants_witness :
    ([1, 1].length = 2 ∧ (∀ a ∈ [1, 1], 1 ≤ a) ∧ 2 ≤ [1, 1].sum ∧ [1, 1].sum ≤ 2) ∧
    colorIso 2 ([(0, 1)], 2).1 [1] [2] = false ∧
    weightsD chiN 2 3 2 3 2 1 = [(List.range' 1 2).map fun d => [d]] :=
  ⟨(C5_weighting_invariants chiN 2 3 2 3).1 3 2 [[1, 1]] [1, 1] (by decide) (by decide),
   (C5_weighting_invariants chiN 2 3 2 3).2.1 2 1 0 0 1 ([(0, 1)], 2) [[1], [2]] [1] [2]
     (by decide) (by decide) (by decide) (by decide) (by decide),
   (C5_weighting_invariants chiN 2 3 2 3).2.2⟩

/-- Inserting into a list permutes consing. -/
theorem insertSortedN_perm (x : Nat) : ∀ l : List Nat, (insertSortedN l x).Perm (x :: l) := by
  intro l
  induction l with
  | nil => rfl
  | cons y ys ih =>
    rw [insertSortedN]
    by_cases h : y ≤ x
    · rw [if_pos h]
      exact (ih.cons y).trans (List.Perm.swap x y ys)
    · rw [if_neg h]

/-- The stable natural sort permutes its input. -/
theorem sortedByN_perm (l : List Nat) : (sortedByN l).Perm l := by
  have main : ∀ (l acc : List Nat), (l.foldl insertSortedN acc).Perm (acc ++ l) := by
    intro l
    induction l with
    | nil => intro acc; simp
    | cons x xs ih =>
      intro acc
      have h1 := ih (insertSortedN acc x)
      have h2 : (insertSortedN acc x ++ xs).Perm (acc ++ x :: xs) :=
        ((insertSortedN_perm x acc).append_right xs).trans (List.perm_middle).symm
      exact h1.trans h2
  exact main l []

/-- Insertion preserves sortedness of naturals. -/
theorem insertSortedN_sorted (x : Nat) :
    ∀ {l : List Nat}, List.Pairwise (fun a b => a ≤ b) l →
      List.Pairwise (fun a b => a ≤ b) (insertSortedN l x) := by
  intro l
  induction l with
  | nil => intro _; exact List.pairwise_singleton _ _
  | cons y ys ih =>
    intro hp
    rw [insertSortedN]
    rcases List.pairwise_cons.mp hp with ⟨hy, hys⟩
    by_cases h : y ≤ x
    · rw [if_pos h]
      rw [List.pairwise_cons]
      refine ⟨?_, ih hys⟩
      intro a ha
      have := (insertSortedN_perm x ys).mem_iff.mp ha
      rcases List.mem_cons.mp this with rfl | hmem
      · exact h
      · exact hy a hmem
    · rw [if_neg h]
      rw [List.pairwise_cons]
      refine ⟨?_, hp⟩
      intro a ha
      rcases List.mem_cons.mp ha with rfl | hmem
      · omega
      · have := hy a hmem
        omega

/-- The stable natural sort sorts. -/
theorem sortedByN_sorted (l : List Nat) :
    List.Pairwise (fun a b => a ≤ b) (sortedByN l) := by
  have main : ∀ (l acc : List Nat), List.Pairwise (fun a b => a ≤ b) acc →
      List.Pairwise (fun a b => a ≤ b) (l.foldl insertSortedN acc) := by
    intro l
    induction l with
    | nil => intro acc h; exact h
    | cons x xs ih => intro acc h; exact ih _ (insertSortedN_sorted x h)
  exact main l [] List.Pairwise.nil

/-- Inserting a pair permutes consing. -/
theorem insertSortedP_perm (le : Nat × Nat → Nat × Nat → Bool) (x : Nat × Nat) :
    ∀ l : List (Nat × Nat), (insertSortedP le l x).Perm (x :: l) := by
  intro l
  induction l with
  | nil => rfl
  | cons y ys ih =>
    rw [insertSortedP]
    by_cases h : le y x = true
    · rw [if_pos h]
      exact (ih.cons y).trans (List.Perm.swap x y ys)
    · rw [if_neg h]

/-- The stable pair sort permutes its input. -/
theorem sortedByP_perm (le : Nat × Nat → Nat × Nat → Bool) (l : List (Nat × Nat)) :
    (sortedByP le l).Perm l := by
  have main : ∀ (l acc : List (Nat × Nat)), (l.foldl (insertSortedP le) acc).Perm (acc ++ l) := by
    intro l
    induction l with
    | nil => intro acc; simp
    | cons x xs ih =>
      intro acc
      have h1 := ih (insertSortedP le acc x)
      have h2 : (insertSortedP le acc x ++ xs).Perm (acc ++ x :: xs) :=
        ((insertSortedP_perm le x acc).append_right xs).trans (List.perm_middle).symm
      exact h1.trans h2
  exact main l []

/-- Inserting a partition permutes consing. -/
theorem insertSorted_perm (le : List Nat → List Nat → Bool) (x : List Nat) :
    ∀ l : List (List Nat), (insertSorted le l x).Perm (x :: l) := by
  intro l
  induction l with
  | nil => rfl
  | cons y ys ih =>
    rw [insertSorted]
    by_cases h : le y x = true
    · rw [if_pos h]
      exact (ih.cons y).trans (List.Perm.swap x y ys)
    · rw [if_neg h]

/-- The stable partition sort permutes its input. -/
theorem sortedBy_perm (le : List Nat → List Nat → Bool) (l : List (List Nat)) :
    (sortedBy le l).Perm l := by
  have main : ∀ (l acc : List (List Nat)), (l.foldl (insertSorted le) acc).Perm (acc ++ l) := by
    intro l
    induction l with
    | nil => intro acc; simp
    | cons x xs ih =>
      intro acc
      have h1 := ih (insertSorted le acc x)
      have h2 : (insertSorted le acc x ++ xs).Perm (acc ++ x :: xs) :=
        ((insertSorted_perm le x acc).append_right xs).trans (List.perm_middle).symm
      exact h1.trans h2
  exact main l []

/-- Members of the product of ranges are pointwise bounded. -/
theorem mem_natProduct : ∀ {cs ks : List Nat}, ks ∈ natProduct cs →
    List.Forall₂ (fun a b => a < b) ks cs := by
  intro cs
  induction cs with
  | nil =>
    intro ks h
    rw [natProduct, List.mem_singleton] at h
    subst h
    exact List.Forall₂.nil
  | cons c rest ih =>
    intro ks h
    rw [natProduct] at h
    simp only [List.mem_flatMap, List.mem_map, List.mem_range] at h
    obtain ⟨idx, hidx, t, ht, rfl⟩ := h
    exact List.Forall₂.cons hidx (ih ht)

/-- The mask keeps a sublist. -/
theorem mem_maskKeep : ∀ {seen : List (List Nat)} {l : List (List Nat × SpecRow)}
    {pr : List Nat × SpecRow}, pr ∈ maskKeep seen l → pr ∈ l := by
  intro seen l
  induction l generalizing seen with
  | nil => intro pr h; exact absurd h (List.not_mem_nil pr)
  | cons hd tl ih =>
    intro pr h
    rw [maskKeep] at h
    by_cases hs : hd.1 ∈ seen
    · rw [if_pos hs] at h
      exact List.mem_cons_of_mem hd (ih h)
    · rw [if_neg hs] at h
      rcases List.mem_cons.mp h with heq | h2
      · exact heq ▸ List.mem_cons_self hd tl
      · exact List.mem_cons_of_mem hd (ih h2)

/-- The masked formula list has no duplicates and avoids the seen set. -/
theorem maskKeep_nodup : ∀ {seen : List (List Nat)} {l : List (List Nat × SpecRow)},
    ((maskKeep seen l).map fun pr => pr.1).Nodup ∧
      ∀ fm ∈ (maskKeep seen l).map fun pr => pr.1, fm ∉ seen := by
  intro seen l
  induction l generalizing seen with
  | nil => exact ⟨List.nodup_nil, by intro fm h; exact absurd h (List.not_mem_nil fm)⟩
  | cons hd tl ih =>
    rw [maskKeep]
    by_cases hs : hd.1 ∈ seen
    · rw [if_pos hs]
      exact ih
    · rw [if_neg hs]
      obtain ⟨ihn, ihs⟩ := @ih (seen ++ [hd.1])
      constructor
      · rw [List.map_cons, List.nodup_cons]
        refine ⟨?_, ihn⟩
        intro hbad
        have := ihs hd.1 hbad
        simp at this
      · intro fm hfm
        rw [List.map_cons] at hfm
        rcases List.mem_cons.mp hfm with rfl | h2
        · exact hs
        · intro hbad
          exact (ihs fm h2) (List.mem_append.mpr (Or.inl hbad))

/-- Any member is bounded by the list maximum. -/
theorem le_listMax {l : List Nat} {a : Nat} (h : a ∈ l) : a ≤ listMax l := by
  induction l with
  | nil => exact absurd h (List.not_mem_nil a)
  | cons x xs ih =>
    rw [listMax, List.foldr_cons]
    rcases List.mem_cons.mp h with rfl | h2
    · exact Nat.le_max_left _ _
    · exact le_trans (ih h2) (Nat.le_max_right _ _)

/-- Sum of casts of a natural list. -/
theorem cast_list_sum (l : List Nat) : ((l.sum : Nat) : Int) = (l.map fun x : Nat => (x : Int)).sum := by
  induction l with
  | nil => rfl
  | cons x xs ih => simp [ih]

/-- Sum of a pointwise decrement. -/
theorem sum_map_sub_one {α : Type _} (l : List α) (f : α → Int) :
    (l.map fun x => f x - 1).sum = (l.map f).sum - l.length := by
  induction l with
  | nil => simp
  | cons x xs ih =>
    simp only [List.map_cons, List.sum_cons, ih, List.length_cons]
    push_cast
    ring

/-- Sum of the constant 2. -/
theorem sum_map_two {α : Type _} (l : List α) :
    (l.map fun _ => (2 : Int)).sum = 2 * l.length := by
  induction l with
  | nil => simp
  | cons x xs ih =>
    simp only [List.map_cons, List.sum_cons, ih, List.length_cons]
    push_cast
    ring

/-- Decomposing membership in the disconnected emission stream. -/
theorem mem_discAll {conn : ConnOut} {dmax nmax : Nat} {pr : List Nat × SpecRow}
    (h : pr ∈ discAll conn dmax nmax) :
    ∃ (n d : Nat) (n_part : List Nat) (sp : List (Nat × Nat)),
      4 ≤ n ∧ n ≤ 2 * dmax ∧ n / 2 ≤ d ∧ d ≤ dmax ∧
      n_part ∈ nPartsSorted nmax n ∧
      sp ∈ specPairs conn n_part
        ((int_partition_unordered d).filter fun x => x.length == n_part.length) ∧
      pr ∈ discRowsFor conn n d sp := by
  simp only [discAll, List.mem_flatMap, List.mem_range'_1] at h
  obtain ⟨n, ⟨hn1, hn2⟩, d, ⟨hd1, hd2⟩, n_part, hnp, hrest⟩ := h
  by_cases hemp : ((int_partition_unordered d).filter fun x => x.length == n_part.length).isEmpty
  · rw [if_pos hemp] at hrest
    exact absurd hrest (List.not_mem_nil pr)
  · rw [if_neg hemp] at hrest
    simp only [List.mem_flatMap] at hrest
    obtain ⟨sp, hsp, hpr⟩ := hrest
    exact ⟨n, d, n_part, sp, hn1, by omega, hd1, by omega, hnp, hsp, hpr⟩

/-- Decomposing membership in the per-cell component-spec set. -/
theorem mem_specPairs {conn : ConnOut} {n_part : List Nat} {d_parts : List (List Nat)}
    {sp : List (Nat × Nat)} (h : sp ∈ specPairs conn n_part d_parts) :
    ∃ (n_ord d_part : List Nat), n_ord ∈ n_part.permutations' ∧ d_part ∈ d_parts ∧
      sp = sortPairs (n_ord.zip d_part) ∧
      ∀ q ∈ sp, (dictKs conn.ks q).isSome = true := by
  rw [specPairs] at h
  rcases mem_foldl_keep h with h1 | h1
  · exact absurd h1 (List.not_mem_nil sp)
  simp only [List.mem_flatMap] at h1
  obtain ⟨n_ord, hno, h2⟩ := h1
  have hno2 : n_ord ∈ n_part.permutations' := by
    rcases mem_foldl_keep hno with h3 | h3
    · exact absurd h3 (List.not_mem_nil n_ord)
    · exact h3
  rw [List.mem_filterMap] at h2
  obtain ⟨d_part, hdp, hfd⟩ := h2
  by_cases hall : (List.all (sortPairs (n_ord.zip d_part))
      fun q => (dictKs conn.ks q).isSome) = true
  · rw [if_pos hall] at hfd
    have hspq : sp = sortPairs (n_ord.zip d_part) := (Option.some_inj.mp hfd).symm
    refine ⟨n_ord, d_part, hno2, hdp, hspq, ?_⟩
    intro q hq
    rw [List.all_eq_true] at hall
    rw [hspq] at hq
    exact hall q hq
  · rw [if_neg hall] at hfd
    exact absurd hfd (by simp)

/-- Decomposing membership in the emitted rows of one component spec. -/
theorem mem_discRowsFor {conn : ConnOut} {n d : Nat} {sp : List (Nat × Nat)}
    {pr : List Nat × SpecRow} (h : pr ∈ discRowsFor conn n d sp) :
    ∃ kspec : List Nat,
      kspec ∈ natProduct (sp.map fun q => (dictKs conn.ks q).getD 0) ∧
      pr.1 = sortNat ((sp.zip kspec).map fun pk =>
        (dictNdk conn.ndk2i (pk.1.1, pk.1.2, pk.2)).getD 0) ∧
      pr.2.n = (n : Int) ∧ pr.2.d = (d : Int) ∧ pr.2.p = (kspec.length : Int) := by
  rw [discRowsFor] at h
  simp only [List.mem_map] at h
  obtain ⟨jk, hjk, hpr⟩ := h
  have hk2 : jk.2 ∈ natProduct (sp.map fun q => (dictKs conn.ks q).getD 0) := by
    obtain ⟨jkf, jks⟩ := jk
    have := List.mem_enum hjk
    rw [this.2]
    exact List.getElem_mem this.1
  refine ⟨jk.2, hk2, ?_, ?_, ?_, ?_⟩ <;> rw [← hpr]

/-- Soundness of every emitted disconnected pair: sorted formula of at
least two connected-row indices, p equal to the component count, every
component a connected row with in-range vertex count, and the component
sums reproducing the row's (n, d), which lies in the claimed ranges. -/
theorem discAll_sound {dmax nmax : Nat} {conn : ConnOut}
    (hci : ConnInv nmax dmax conn) {pr : List Nat × SpecRow}
    (h : pr ∈ discAll conn dmax nmax) :
    List.Pairwise (fun a b => a ≤ b) pr.1 ∧
    2 ≤ pr.1.length ∧
    pr.2.p = (pr.1.length : Int) ∧
    (∀ ind ∈ pr.1, ∃ r : SpecRow, conn.specs[ind]? = some r ∧
      2 ≤ r.n ∧ r.n ≤ (nmax : Int)) ∧
    ∃ nn dd : Nat, pr.2.n = (nn : Int) ∧ pr.2.d = (dd : Int) ∧
      4 ≤ nn ∧ nn ≤ 2 * dmax ∧ (nn + 1) / 2 ≤ dd ∧ dd ≤ dmax ∧
      (pr.1.map fun ind => (conn.specs.getD ind row0).n).sum = (nn : Int) ∧
      (pr.1.map fun ind => (conn.specs.getD ind row0).d).sum = (dd : Int) := by
  obtain ⟨n, d, n_part, sp, hn4, hn2d, _hdlo, hdhi, hnp, hsp, hrow⟩ := mem_discAll h
  obtain ⟨n_ord, d_part, hno, hdp, hspe, hall⟩ := mem_specPairs hsp
  obtain ⟨kspec, hks, hf, hrn, hrd, hrp⟩ := mem_discRowsFor hrow
  have hnoperm : n_ord.Perm n_part := List.mem_permutations'.mp hno
  have hnol : n_ord.length = n_part.length := hnoperm.length_eq
  rw [List.mem_filter] at hdp
  have hdplen : d_part.length = n_part.length := by simpa using hdp.2
  have hnpmem := (sortedBy_perm (fun a b => decide (a.length ≤ b.length))
      ((int_partition_unordered n).filter (goodPart nmax))).mem_iff.mp hnp
  rw [List.mem_filter] at hnpmem
  obtain ⟨hnp1, hnp2⟩ := hnpmem
  rw [goodPart, Bool.and_eq_true, Bool.and_eq_true] at hnp2
  have hn1 : (1 : Nat) ∉ n_part := by
    have h0 := hnp2.1.1
    simpa using h0
  have hnmaxb : listMax n_part ≤ nmax := by
    have := hnp2.1.2
    rwa [decide_eq_true_eq] at this
  have hlen2 : 1 < n_part.length := by
    have := hnp2.2
    rwa [decide_eq_true_eq] at this
  obtain ⟨hnparts, hnsum⟩ := int_partition_unordered_wf hnp1
  obtain ⟨_hdparts, hdsum⟩ := int_partition_unordered_wf hdp.1
  have hsp_perm : sp.Perm (n_ord.zip d_part) := by
    rw [hspe]
    exact sortedByP_perm _ _
  have hziplen : (n_ord.zip d_part).length = n_part.length := by
    rw [List.length_zip, hnol, hdplen]
    exact Nat.min_self _
  have hsplen : sp.length = n_part.length := hsp_perm.length_eq.trans hziplen
  have hklen : kspec.length = sp.length := by
    have := (mem_natProduct hks).length_eq
    simpa using this
  have hrawlen : ((sp.zip kspec).map fun pk =>
      (dictNdk conn.ndk2i (pk.1.1, pk.1.2, pk.2)).getD 0).length = sp.length := by
    rw [List.length_map, List.length_zip, hklen]
    exact Nat.min_self _
  have hf_perm : pr.1.Perm ((sp.zip kspec).map fun pk =>
      (dictNdk conn.ndk2i (pk.1.1, pk.1.2, pk.2)).getD 0) := by
    rw [hf]
    exact sortedByN_perm _
  have hf_len : pr.1.length = sp.length := hf_perm.length_eq.trans hrawlen
  -- bounds on the component keys
  have hqbound : ∀ q ∈ sp, 2 ≤ q.1 ∧ q.1 ≤ nmax := by
    intro q hq
    have hz : q ∈ n_ord.zip d_part := hsp_perm.mem_iff.mp hq
    have h1 : q.1 ∈ n_ord := by
      obtain ⟨a, b⟩ := q
      exact (List.of_mem_zip hz).1
    have h2 : q.1 ∈ n_part := hnoperm.mem_iff.mp h1
    refine ⟨?_, le_trans (le_listMax h2) hnmaxb⟩
    have h3 := (hnparts q.1 h2).1
    have h4 : q.1 ≠ 1 := fun hq1 => hn1 (hq1 ▸ h2)
    omega
  -- pointwise resolution of the formula entries
  have hpoint : ∀ (t : Nat) (ht : t < (sp.zip kspec).length),
      ∃ r : SpecRow,
        conn.specs[(dictNdk conn.ndk2i
          (((sp.zip kspec).get ⟨t, ht⟩).1.1, ((sp.zip kspec).get ⟨t, ht⟩).1.2,
            ((sp.zip kspec).get ⟨t, ht⟩).2)).getD 0]? = some r ∧
        r.n = (((sp.zip kspec).get ⟨t, ht⟩).1.1 : Int) ∧
        r.d = (((sp.zip kspec).get ⟨t, ht⟩).1.2 : Int) := by
    intro t ht
    have htsp : t < sp.length := by
      rw [List.length_zip, hklen, Nat.min_self] at ht
      exact ht
    have htks : t < kspec.length := by omega
    have hzt : (sp.zip kspec).get ⟨t, ht⟩ = (sp.get ⟨t, htsp⟩, kspec.get ⟨t, htks⟩) := by
      show (sp.zip kspec)[t] = _
      rw [List.getElem_zip]
      rfl
    rw [hzt]
    set q := sp.get ⟨t, htsp⟩ with hqdef
    have hqs : (dictKs conn.ks q).isSome = true := hall q (sp.get_mem t htsp)
    rcases hkv : dictKs conn.ks q with _ | c
    · rw [hkv] at hqs; simp at hqs
    have htm : t < (sp.map fun q2 => (dictKs conn.ks q2).getD 0).length := by
      simpa using htsp
    have hkslt : kspec.get ⟨t, htks⟩ < c := by
      have hfa := (List.forall₂_iff_get.mp (mem_natProduct hks)).2 t htks htm
      have hmg : (sp.map fun q2 => (dictKs conn.ks q2).getD 0).get ⟨t, htm⟩ = c := by
        have h1 : (sp.map fun q2 => (dictKs conn.ks q2).getD 0).get ⟨t, htm⟩
            = (dictKs conn.ks (sp.get ⟨t, htsp⟩)).getD 0 := by
          show (sp.map fun q2 => (dictKs conn.ks q2).getD 0)[t] = _
          rw [List.getElem_map]
          rfl
        rw [h1, ← hqdef, hkv]
        rfl
      rwa [hmg] at hfa
    obtain ⟨_, _, _, _, _, hkfun⟩ := hci.hks q c hkv
    obtain ⟨ind, hind⟩ := hkfun _ hkslt
    obtain ⟨_hlt, r, hr, hr1, hr2⟩ := hci.hndk (q.1, q.2, kspec.get ⟨t, htks⟩) ind hind
    refine ⟨r, ?_, hr1, hr2⟩
    show conn.specs[(dictNdk conn.ndk2i (q.1, q.2, kspec.get ⟨t, htks⟩)).getD 0]? = some r
    rw [hind]
    exact hr
  -- map equalities for the sums
  have hmapn : (((sp.zip kspec).map fun pk =>
      (dictNdk conn.ndk2i (pk.1.1, pk.1.2, pk.2)).getD 0).map
        fun ind => (conn.specs.getD ind row0).n) = sp.map fun q => (q.1 : Int) := by
    apply List.ext_getElem
    · rw [List.length_map, List.length_map, List.length_zip, List.length_map, hklen,
        Nat.min_self]
    · intro t h1 h2
      have ht : t < (sp.zip kspec).length := by
        rw [List.length_map, List.length_map] at h1
        exact h1
      have htsp : t < sp.length := by
        rw [List.length_zip, hklen, Nat.min_self] at ht
        exact ht
      obtain ⟨r, hr, hrn2, _⟩ := hpoint t ht
      have hzt1 : ((sp.zip kspec).get ⟨t, ht⟩).1 = sp.get ⟨t, htsp⟩ := by
        show (sp.zip kspec)[t].1 = sp[t]
        rw [List.getElem_zip]
      rw [List.getElem_map, List.getElem_map, List.getElem_map,
        List.getD_eq_getElem?_getD,
        show (sp.zip kspec)[t] = (sp.zip kspec).get ⟨t, ht⟩ from rfl, hr,
        Option.getD_some, hrn2, hzt1]
      rfl
  have hmapd : (((sp.zip kspec).map fun pk =>
      (dictNdk conn.ndk2i (pk.1.1, pk.1.2, pk.2)).getD 0).map
        fun ind => (conn.specs.getD ind row0).d) = sp.map fun q => (q.2 : Int) := by
    apply List.ext_getElem
    · rw [List.length_map, List.length_map, List.length_zip, List.length_map, hklen,
        Nat.min_self]
    · intro t h1 h2
      have ht : t < (sp.zip kspec).length := by
        rw [List.length_map, List.length_map] at h1
        exact h1
      have htsp : t < sp.length := by
        rw [List.length_zip, hklen, Nat.min_self] at ht
        exact ht
      obtain ⟨r, hr, _, hrd2⟩ := hpoint t ht
      have hzt1 : ((sp.zip kspec).get ⟨t, ht⟩).1 = sp.get ⟨t, htsp⟩ := by
        show (sp.zip kspec)[t].1 = sp[t]
        rw [List.getElem_zip]
      rw [List.getElem_map, List.getElem_map, List.getElem_map,
        List.getD_eq_getElem?_getD,
        show (sp.zip kspec)[t] = (sp.zip kspec).get ⟨t, ht⟩ from rfl, hr,
        Option.getD_some, hrd2, hzt1]
      rfl
  have hsum_fst : (sp.map fun q => ((q.1 : Nat) : Int)).sum = (n : Int) := by
    have h1 : (sp.map Prod.fst).Perm n_ord := by
      have := hsp_perm.map Prod.fst
      rwa [List.map_fst_zip n_ord d_part (by omega)] at this
    have h2 : (sp.map Prod.fst).sum = n := by
      rw [h1.sum_eq, hnoperm.sum_eq, hnsum]
    calc (sp.map fun q => ((q.1 : Nat) : Int)).sum
        = ((sp.map Prod.fst).map fun x : Nat => (x : Int)).sum := by rw [List.map_map]; rfl
      _ = (((sp.map Prod.fst).sum : Nat) : Int) := (cast_list_sum _).symm
      _ = (n : Int) := by rw [h2]
  have hsum_snd : (sp.map fun q => ((q.2 : Nat) : Int)).sum = (d : Int) := by
    have h1 : (sp.map Prod.snd).Perm d_part := by
      have := hsp_perm.map Prod.snd
      rwa [List.map_snd_zip n_ord d_part (by omega)] at this
    have h2 : (sp.map Prod.snd).sum = d := by
      rw [h1.sum_eq, hdsum]
    calc (sp.map fun q => ((q.2 : Nat) : Int)).sum
        = ((sp.map Prod.snd).map fun x : Nat => (x : Int)).sum := by rw [List.map_map]; rfl
      _ = (((sp.map Prod.snd).sum : Nat) : Int) := (cast_list_sum _).symm
      _ = (d : Int) := by rw [h2]
  have hSn : (pr.1.map fun ind => (conn.specs.getD ind row0).n).sum = (n : Int) := by
    rw [(hf_perm.map _).sum_eq, hmapn, hsum_fst]
  have hSd : (pr.1.map fun ind => (conn.specs.getD ind row0).d).sum = (d : Int) := by
    rw [(hf_perm.map _).sum_eq, hmapd, hsum_snd]
  -- per-member resolution
  have hmemres : ∀ ind ∈ pr.1, ∃ r : SpecRow, conn.specs[ind]? = some r ∧
      2 ≤ r.n ∧ r.n ≤ (nmax : Int) := by
    intro ind hind
    have hind2 := hf_perm.mem_iff.mp hind
    obtain ⟨t, ht, hteq⟩ := List.mem_iff_getElem.mp hind2
    have ht2 : t < (sp.zip kspec).length := by
      rw [List.length_map] at ht
      exact ht
    obtain ⟨r, hr, hrn2, _⟩ := hpoint t ht2
    have htsp : t < sp.length := by
      rw [List.length_zip, hklen, Nat.min_self] at ht2
      exact ht2
    have hq := hqbound (sp.get ⟨t, htsp⟩) (sp.get_mem t htsp)
    have hindeq : ind = (dictNdk conn.ndk2i
        (((sp.zip kspec).get ⟨t, ht2⟩).1.1, ((sp.zip kspec).get ⟨t, ht2⟩).1.2,
          ((sp.zip kspec).get ⟨t, ht2⟩).2)).getD 0 := by
      rw [← hteq, List.getElem_map]
      rfl
    rw [hindeq]
    refine ⟨r, hr, ?_, ?_⟩
    · rw [hrn2]
      have h1 : ((sp.zip kspec).get ⟨t, ht2⟩).1 = sp.get ⟨t, htsp⟩ := by
        show (sp.zip kspec)[t].1 = sp[t]
        rw [List.getElem_zip]
      rw [h1]
      exact_mod_cast hq.1
    · rw [hrn2]
      have h1 : ((sp.zip kspec).get ⟨t, ht2⟩).1 = sp.get ⟨t, htsp⟩ := by
        show (sp.zip kspec)[t].1 = sp[t]
        rw [List.getElem_zip]
      rw [h1]
      exact_mod_cast hq.2
  -- the derived lower bound on d
  have hlb : (n + 1) / 2 ≤ d := by
    have h2L : (pr.1.map fun _ => (2 : Int)).sum ≤
        (pr.1.map fun ind => (conn.specs.getD ind row0).n).sum := by
      apply List.sum_le_sum
      intro ind hind
      obtain ⟨r, hr, hrb, _⟩ := hmemres ind hind
      rw [List.getD_eq_getElem?_getD, hr]
      exact hrb
    have hnd : (pr.1.map fun ind => (conn.specs.getD ind row0).n - 1).sum ≤
        (pr.1.map fun ind => (conn.specs.getD ind row0).d).sum := by
      apply List.sum_le_sum
      intro ind hind
      obtain ⟨r, hr, _, _⟩ := hmemres ind hind
      have hrowb := hci.hrowb _ r hr
      rw [List.getD_eq_getElem?_getD, hr]
      exact hrowb.2.2.1
    rw [sum_map_two, hSn] at h2L
    rw [sum_map_sub_one, hSn, hSd] at hnd
    have hLlen : pr.1.length = sp.length := hf_len
    omega
  refine ⟨?_, ?_, ?_, hmemres, n, d, hrn, hrd, hn4, hn2d, hlb, hdhi, hSn, hSd⟩
  · rw [hf]
    exact sortedByN_sorted _
  · omega
  · rw [hrp, hf_len, hklen]

/-- C6: every retained disconnected formula is a sorted tuple of at
least two connected-row indices whose referenced rows' n values sum to
the disconnected row's n and whose d values sum to its d, and the stored
disc_formulae list contains no duplicate tuples. -/
theorem C6_formula_invariants (chiF : List Edge → Nat → Nat) (dmax nmax emax cmax : Nat)
    (j : Nat) (fm : List Nat) (r : SpecRow)
    (hf : (generator chiF dmax nmax emax cmax).disc_formulae[j]? = some fm)
    (hr : (generator chiF dmax nmax emax cmax).disc_specs[j]? = some r) :
    (List.Pairwise (fun a b => a ≤ b) fm ∧ 2 ≤ fm.length ∧
      (∀ ind ∈ fm, ind < (generator chiF dmax nmax emax cmax).connected_specs.length) ∧
      (fm.map fun ind =>
        ((generator chiF dmax nmax emax cmax).connected_specs.getD ind row0).n).sum = r.n ∧
      (fm.map fun ind =>
        ((generator chiF dmax nmax emax cmax).connected_specs.getD ind row0).d).sum = r.d) ∧
    (generator chiF dmax nmax emax cmax).disc_formulae.Nodup := by
  have hf2 : ((maskKeep [] (discAll (connPhase chiF dmax nmax emax cmax) dmax nmax)).map
      fun pr => pr.1)[j]? = some fm := hf
  have hr2 : ((maskKeep [] (discAll (connPhase chiF dmax nmax emax cmax) dmax nmax)).map
      fun pr => pr.2)[j]? = some r := hr
  rw [List.getElem?_map] at hf2 hr2
  rcases hk : (maskKeep [] (discAll (connPhase chiF dmax nmax emax cmax) dmax nmax))[j]?
    with _ | pr
  · rw [hk] at hf2
    exact absurd hf2 (by simp)
  rw [hk] at hf2 hr2
  have hfm : pr.1 = fm := by simpa using hf2
  have hrr : pr.2 = r := by simpa using hr2
  subst hfm
  subst hrr
  have hmem : pr ∈ maskKeep [] (discAll (connPhase chiF dmax nmax emax cmax) dmax nmax) :=
    List.getElem?_mem hk
  obtain ⟨hsort, hlen, _hp, hres, nn, dd, hn, hd, _, _, _, _, hSn, hSd⟩ :=
    discAll_sound (connPhase_inv chiF dmax nmax emax cmax) (mem_maskKeep hmem)
  refine ⟨⟨hsort, hlen, ?_, ?_, ?_⟩, ?_⟩
  · intro ind hind
    obtain ⟨r', hr', _⟩ := hres ind hind
    exact (List.getElem?_eq_some.mp hr').1
  · rw [hn]
    exact hSn
  · rw [hd]
    exact hSd
  · exact (@maskKeep_nodup [] (discAll (connPhase chiF dmax nmax emax cmax) dmax nmax)).1

/-- Witness for C6 at chiN, dmax=nmax=emax=cmax=2: the single retained
formula [0,0] with its disconnected row. -/
theorem C6_formula_invariants_witness :
    ((generator chiN 2 2 2 2).disc_formulae[0]? = some [0, 0] ∧
      (generator chiN 2 2 2 2).disc_specs[0]? = some ⟨4, 1, 2, 0, -1, -1, 2, 2⟩) ∧
    ((List.Pairwise (fun a b => a ≤ b) [0, 0] ∧ 2 ≤ ([0, 0] : List Nat).length ∧
      (∀ ind ∈ ([0, 0] : List Nat),
        ind < (generator chiN 2 2 2 2).connected_specs.length) ∧
      (([0, 0] : List Nat).map fun ind =>
        ((generator chiN 2 2 2 2).connected_specs.getD ind row0).n).sum =
          (⟨4, 1, 2, 0, -1, -1, 2, 2⟩ : SpecRow).n ∧
      (([0, 0] : List Nat).map fun ind =>
        ((generator chiN 2 2 2 2).connected_specs.getD ind row0).d).sum =
          (⟨4, 1, 2, 0, -1, -1, 2, 2⟩ : SpecRow).d) ∧
    (generator chiN 2 2 2 2).disc_formulae.Nodup) :=
  ⟨⟨by decide, by decide⟩,
    C6_formula_invariants chiN 2 2 2 2 0 [0, 0] ⟨4, 1, 2, 0, -1, -1, 2, 2⟩
      (by decide) (by decide)⟩

/-- C7: every disconnected pair emitted by the composer has n with
4 ≤ n ≤ 2·dmax and d with ⌈n/2⌉ ≤ d ≤ dmax, at least two components,
p equal to the component count, component (n_i, d_i) sums reproducing
(n, d), and every component an actual connected row with 2 ≤ n_i ≤ nmax. -/
theorem C7_disc_ranges (chiF : List Edge → Nat → Nat) (dmax nmax emax cmax : Nat)
    (pr : List Nat × SpecRow)
    (h : pr ∈ discAll (connPhase chiF dmax nmax emax cmax) dmax nmax) :
    ∃ nn dd : Nat, pr.2.n = (nn : Int) ∧ pr.2.d = (dd : Int) ∧
      4 ≤ nn ∧ nn ≤ 2 * dmax ∧ (nn + 1) / 2 ≤ dd ∧ dd ≤ dmax ∧
      2 ≤ pr.1.length ∧ pr.2.p = (pr.1.length : Int) ∧
      (pr.1.map fun ind =>
        ((connPhase chiF dmax nmax emax cmax).specs.getD ind row0).n).sum = (nn : Int) ∧
      (pr.1.map fun ind =>
        ((connPhase chiF dmax nmax emax cmax).specs.getD ind row0).d).sum = (dd : Int) ∧
      ∀ ind ∈ pr.1, ∃ r : SpecRow,
        (connPhase chiF dmax nmax emax cmax).specs[ind]? = some r ∧
        2 ≤ r.n ∧ r.n ≤ (nmax : Int) := by
  obtain ⟨_hsort, hlen, hp, hres, nn, dd, hn, hd, h4, h2d, hlo, hhi, hSn, hSd⟩ :=
    discAll_sound (connPhase_inv chiF dmax nmax emax cmax) h
  exact ⟨nn, dd, hn, hd, h4, h2d, hlo, hhi, hlen, hp, hSn, hSd, hres⟩

/-- Witness for C7 at chiN, dmax=nmax=emax=cmax=2 on the single emitted
pair. -/
theorem C7_disc_ranges_witness :
    ([0, 0], (⟨4, 1, 2, 0, -1, -1, 2, 2⟩ : SpecRow)) ∈
        discAll (connPhase chiN 2 2 2 2) 2 2 ∧
    ∃ nn dd : Nat,
      (([0, 0], (⟨4, 1, 2, 0, -1, -1, 2, 2⟩ : SpecRow)) : List Nat × SpecRow).2.n = (nn : Int) ∧
      (([0, 0], (⟨4, 1, 2, 0, -1, -1, 2, 2⟩ : SpecRow)) : List Nat × SpecRow).2.d = (dd : Int) ∧
      4 ≤ nn ∧ nn ≤ 2 * 2 ∧ (nn + 1) / 2 ≤ dd ∧ dd ≤ 2 ∧
      2 ≤ (([0, 0], (⟨4, 1, 2, 0, -1, -1, 2, 2⟩ : SpecRow)) : List Nat × SpecRow).1.length ∧
      (([0, 0], (⟨4, 1, 2, 0, -1, -1, 2, 2⟩ : SpecRow)) : List Nat × SpecRow).2.p =
        ((([0, 0], (⟨4, 1, 2, 0, -1, -1, 2, 2⟩ : SpecRow)) : List Nat × SpecRow).1.length : Int) ∧
      ((([0, 0], (⟨4, 1, 2, 0, -1, -1, 2, 2⟩ : SpecRow)) : List Nat × SpecRow).1.map fun ind =>
        ((connPhase chiN 2 2 2 2).specs.getD ind row0).n).sum = (nn : Int) ∧
      ((([0, 0], (⟨4, 1, 2, 0, -1, -1, 2, 2⟩ : SpecRow)) : List Nat × SpecRow).1.map fun ind =>
        ((connPhase chiN 2 2 2 2).specs.getD ind row0).d).sum = (dd : Int) ∧
      ∀ ind ∈ (([0, 0], (⟨4, 1, 2, 0, -1, -1, 2, 2⟩ : SpecRow)) : List Nat × SpecRow).1,
        ∃ r : SpecRow, (connPhase chiN 2 2 2 2).specs[ind]? = some r ∧
          2 ≤ r.n ∧ r.n ≤ ((2 : Nat) : Int) :=
  ⟨by decide,
    C7_disc_ranges chiN 2 2 2 2 ([0, 0], ⟨4, 1, 2, 0, -1, -1, 2, 2⟩) (by decide)⟩

/-- `_add_if_new` never removes an existing bucket entry. -/
theorem mem_addIfNew_of_mem {chiF : List Edge → Nat → Nat} {cmax n : Nat}
    {b : List (List Edge × Nat)} {cand : List Edge} {gc : List Edge × Nat}
    (h : gc ∈ b) : gc ∈ addIfNew chiF cmax n b cand := by
  rw [addIfNew]
  by_cases h1 : (b.any fun gc' => isIso n cand gc'.1) = true
  · rw [if_pos h1]; exact h
  · rw [if_neg h1]
    by_cases h2 : cmax < chiF cand n
    · rw [if_pos h2]; exact h
    · rw [if_neg h2]; exact List.mem_append.mpr (Or.inl h)

/-- Bucket entries persist through an `_add_if_new` fold. -/
theorem mem_foldl_addIfNew_of_mem {chiF : List Edge → Nat → Nat} {cmax n : Nat} :
    ∀ {cands : List (List Edge)} {s0 : List (List Edge × Nat)} {gc : List Edge × Nat},
      gc ∈ s0 → gc ∈ cands.foldl (addIfNew chiF cmax n) s0 := by
  intro cands
  induction cands with
  | nil => intro s0 gc h; exact h
  | cons hd tl ih =>
    intro s0 gc h
    rw [List.foldl_cons]
    exact ih (mem_addIfNew_of_mem h)

/-- `_add_if_new` preserves well-formedness of the bucket edge lists. -/
theorem addIfNew_wf {chiF : List Edge → Nat → Nat} {cmax n : Nat}
    {b : List (List Edge × Nat)} {cand : List Edge}
    (hcand : ∀ ed ∈ cand, ed.1 < ed.2 ∧ ed.2 < n)
    (hbwf : ∀ gc ∈ b, ∀ ed ∈ gc.1, ed.1 < ed.2 ∧ ed.2 < n) :
    ∀ gc ∈ addIfNew chiF cmax n b cand, ∀ ed ∈ gc.1, ed.1 < ed.2 ∧ ed.2 < n := by
  intro gc hgc
  rw [addIfNew] at hgc
  by_cases h1 : (b.any fun gc' => isIso n cand gc'.1) = true
  · rw [if_pos h1] at hgc; exact hbwf gc hgc
  · rw [if_neg h1] at hgc
    by_cases h2 : cmax < chiF cand n
    · rw [if_pos h2] at hgc; exact hbwf gc hgc
    · rw [if_neg h2] at hgc
      rcases List.mem_append.mp hgc with h | h
      · exact hbwf gc h
      · rcases List.mem_singleton.mp h with rfl
        exact hcand

/-- A streamed candidate within the complexity budget is always
represented, up to isomorphism, in the finished fold. -/
theorem foldl_addIfNew_covers {chiF : List Edge → Nat → Nat} {cmax n : Nat} :
    ∀ {cands : List (List Edge)} {s0 : List (List Edge × Nat)} {cand : List Edge},
      cand ∈ cands → chiF cand n ≤ cmax →
      (∀ c2 ∈ cands, ∀ ed ∈ c2, ed.1 < ed.2 ∧ ed.2 < n) →
      (∀ gc ∈ s0, ∀ ed ∈ gc.1, ed.1 < ed.2 ∧ ed.2 < n) →
      ∃ y ∈ cands.foldl (addIfNew chiF cmax n) s0, isIso n y.1 cand = true := by
  intro cands
  induction cands with
  | nil =>
    intro s0 cand h
    exact absurd h (List.not_mem_nil cand)
  | cons hd tl ih =>
    intro s0 cand hmem hchi hcwf hswf
    have hhdwf := hcwf hd (List.mem_cons_self hd tl)
    have hs1wf : ∀ gc ∈ addIfNew chiF cmax n s0 hd, ∀ ed ∈ gc.1, ed.1 < ed.2 ∧ ed.2 < n :=
      addIfNew_wf hhdwf hswf
    rw [List.foldl_cons]
    rcases List.mem_cons.mp hmem with heq | htl
    · subst heq
      by_cases h1 : (s0.any fun gc' => isIso n cand gc'.1) = true
      · obtain ⟨z, hz, hziso⟩ := List.any_eq_true.mp h1
        have hz' : z ∈ addIfNew chiF cmax n s0 cand := by
          rw [addIfNew, if_pos h1]
          exact hz
        exact ⟨z, mem_foldl_addIfNew_of_mem hz', isIso_symm hhdwf hziso⟩
      · have hnew : (cand, chiF cand n) ∈ addIfNew chiF cmax n s0 cand := by
          rw [addIfNew, if_neg h1, if_neg (by omega : ¬ cmax < chiF cand n)]
          exact List.mem_append.mpr (Or.inr (List.mem_singleton.mpr rfl))
        exact ⟨(cand, chiF cand n), mem_foldl_addIfNew_of_mem hnew, isIso_refl hhdwf⟩
    · exact ih htl hchi (fun c2 hc2 => hcwf c2 (List.mem_cons_of_mem hd hc2)) hs1wf

/-- Extending a permutation of `range (n-1)` with the fixed point
`n-1` gives a permutation of `range n`. -/
theorem permsList_extend {n : Nat} {p : List Nat} (hn : 1 ≤ n) (hp : p ∈ permsList (n - 1)) :
    (p ++ [n - 1]) ∈ permsList n ∧
      (∀ v, v < n - 1 → applyPerm (p ++ [n - 1]) v = applyPerm p v) ∧
      applyPerm (p ++ [n - 1]) (n - 1) = n - 1 := by
  obtain ⟨hlen, hnd, hbd⟩ := permsList_mem hp
  refine ⟨?_, ?_, ?_⟩
  · apply mem_permsList_of
    · rw [List.length_append, hlen]
      simp
      omega
    · rw [List.nodup_append]
      refine ⟨hnd, List.nodup_singleton _, ?_⟩
      intro x hx
      simp only [List.mem_singleton]
      intro hbad
      subst hbad
      exact absurd (hbd _ hx) (by omega)
    · intro x hx
      rcases List.mem_append.mp hx with h | h
      · have := hbd x h; omega
      · rcases List.mem_singleton.mp h with rfl; omega
  · intro v hv
    have hv' : v < p.length := by omega
    have hv2 : v < (p ++ [n - 1]).length := by
      rw [List.length_append]; omega
    rw [applyPerm_getElem hv2, applyPerm_getElem hv']
    exact List.getElem_append_left hv'
  · have hv2 : n - 1 < (p ++ [n - 1]).length := by
      rw [List.length_append, hlen]; simp
    rw [applyPerm_getElem hv2]
    rw [List.getElem_append_right (by omega)]
    simp [hlen]

/-- Appending a common suffix preserves edge-set equality. -/
theorem sameEdgeSet_append {a b l : List Edge} (h : sameEdgeSet a b = true) :
    sameEdgeSet (a ++ l) (b ++ l) = true := by
  rw [sameEdgeSet_iff] at h ⊢
  intro x
  simp only [List.mem_append]
  exact or_congr (h x) Iff.rfl

/-- Normalizing a pair of distinct values gives a strictly ordered
pair. -/
theorem normPair_lt_of_ne {a b : Nat} (h : a ≠ b) : (normPair a b).1 < (normPair a b).2 := by
  simp only [normPair]
  omega

/-- The upper entry of a normalized pair is bounded by any bound on both
inputs. -/
theorem normPair_snd_lt {a b n : Nat} (ha : a < n) (hb : b < n) : (normPair a b).2 < n := by
  simp only [normPair]
  omega

/-- Bucket simulation: for an isomorphism-invariant collaborator, every
entry accepted under the lower bound `c` has an isomorphic
representative accepted under any higher bound `c'`. -/
theorem simpleBucket_mono_sim {chiF : List Edge → Nat → Nat} {nmax emax : Nat}
    (hinv : ∀ (m : Nat) (es1 es2 : List Edge), EdgesWf m es1 → EdgesWf m es2 →
      isIso m es1 es2 = true → chiF es1 m = chiF es2 m)
    {c c' : Nat} (hcc : c ≤ c') :
    ∀ (e n : Nat) (x : List Edge × Nat), x ∈ simpleBucket chiF nmax emax c n e →
      ∃ y ∈ simpleBucket chiF nmax emax c' n e, isIso n y.1 x.1 = true := by
  intro e
  induction e with
  | zero =>
    intro n x hx
    rw [simpleBucket, simpleBucketGo] at hx
    by_cases hk : n < 2 ∨ nmax < n ∨ 0 < n - 1 ∨ emaxs emax n < 0
    · rw [if_pos hk] at hx
      exact absurd hx (List.not_mem_nil x)
    · exact absurd (by omega : n < 2 ∨ nmax < n ∨ 0 < n - 1 ∨ emaxs emax n < 0) hk
  | succ e' ih =>
    intro n x hx
    obtain ⟨hxlen, hxwf, hxchi, hxle⟩ := simpleBucket_wf hx
    have hchile : chiF x.1 n ≤ c := hxchi ▸ hxle
    rw [simpleBucket, simpleBucketGo] at hx
    by_cases hk : n < 2 ∨ nmax < n ∨ e' + 1 < n - 1 ∨ emaxs emax n < e' + 1
    · rw [if_pos hk] at hx
      exact absurd hx (List.not_mem_nil x)
    rw [if_neg hk] at hx
    by_cases hn2 : n = 2
    · subst hn2
      rw [if_pos rfl] at hx
      rw [addIfNew] at hx
      simp only [List.any_nil, Bool.false_eq_true, if_false] at hx
      by_cases hc1 : c < chiF [(0, 1)] 2
      · rw [if_pos hc1] at hx
        exact absurd hx (List.not_mem_nil x)
      · rw [if_neg hc1] at hx
        simp only [List.nil_append, List.mem_singleton] at hx
        subst hx
        refine ⟨([(0, 1)], chiF [(0, 1)] 2), ?_, ?_⟩
        · show _ ∈ simpleBucketGo chiF nmax emax c' (e' + 1) 2
          rw [simpleBucketGo, if_neg hk, if_pos rfl, addIfNew]
          simp only [List.any_nil, Bool.false_eq_true, if_false]
          rw [if_neg (by omega : ¬ c' < chiF [(0, 1)] 2)]
          simp
        · exact isIso_refl (by
            intro ed hed
            rcases List.mem_singleton.mp hed with rfl
            exact ⟨by omega, by omega⟩)
    rw [if_neg hn2] at hx
    have hn3 : 3 ≤ n := by omega
    have hx2 : x ∈ ((if n - 2 ≤ e' ∧ e' ≤ emaxs emax (n - 1) then
        vertCands (simpleBucketGo chiF nmax emax c e' (n - 1)) n else []) ++
      (if n - 1 ≤ e' ∧ e' ≤ emaxs emax n then
        edgeCands (simpleBucketGo chiF nmax emax c e' n) n else [])).foldl
      (addIfNew chiF c n) [] := hx
    -- well-formedness of the c' candidate stream
    have hpar'v : ∀ gc ∈ simpleBucketGo chiF nmax emax c' e' (n - 1),
        gc.1.length = e' ∧ EdgesWf (n - 1) gc.1 :=
      fun gc hgc => ⟨(simpleBucket_wf hgc).1, (simpleBucket_wf hgc).2.1⟩
    have hpar'e : ∀ gc ∈ simpleBucketGo chiF nmax emax c' e' n,
        gc.1.length = e' ∧ EdgesWf n gc.1 :=
      fun gc hgc => ⟨(simpleBucket_wf hgc).1, (simpleBucket_wf hgc).2.1⟩
    have hcands'wf : ∀ c2 ∈ ((if n - 2 ≤ e' ∧ e' ≤ emaxs emax (n - 1) then
        vertCands (simpleBucketGo chiF nmax emax c' e' (n - 1)) n else []) ++
      (if n - 1 ≤ e' ∧ e' ≤ emaxs emax n then
        edgeCands (simpleBucketGo chiF nmax emax c' e' n) n else [])),
        ∀ ed ∈ c2, ed.1 < ed.2 ∧ ed.2 < n := by
      intro c2 hc2
      rcases List.mem_append.mp hc2 with h | h
      · by_cases hg : n - 2 ≤ e' ∧ e' ≤ emaxs emax (n - 1)
        · rw [if_pos hg] at h
          exact ((vertCands_wf hpar'v hn3 c2 h).2).1
        · rw [if_neg hg] at h
          exact absurd h (List.not_mem_nil c2)
      · by_cases hg : n - 1 ≤ e' ∧ e' ≤ emaxs emax n
        · rw [if_pos hg] at h
          exact ((edgeCands_wf hpar'e c2 h).2).1
        · rw [if_neg hg] at h
          exact absurd h (List.not_mem_nil c2)
    -- the c' bucket in fold form
    have hbeq : simpleBucket chiF nmax emax c' n (e' + 1) =
        ((if n - 2 ≤ e' ∧ e' ≤ emaxs emax (n - 1) then
            vertCands (simpleBucketGo chiF nmax emax c' e' (n - 1)) n else []) ++
          (if n - 1 ≤ e' ∧ e' ≤ emaxs emax n then
            edgeCands (simpleBucketGo chiF nmax emax c' e' n) n else [])).foldl
          (addIfNew chiF c' n) [] := by
      rw [simpleBucket, simpleBucketGo, if_neg hk, if_neg hn2]
    rcases mem_foldl_addIfNew hx2 with hnil | ⟨hcand, _, _⟩
    · exact absurd hnil (List.not_mem_nil x)
    -- a c'-side candidate isomorphic to x.1
    have hmain : ∃ cand', (cand' ∈ ((if n - 2 ≤ e' ∧ e' ≤ emaxs emax (n - 1) then
        vertCands (simpleBucketGo chiF nmax emax c' e' (n - 1)) n else []) ++
      (if n - 1 ≤ e' ∧ e' ≤ emaxs emax n then
        edgeCands (simpleBucketGo chiF nmax emax c' e' n) n else []))) ∧
        isIso n cand' x.1 = true := by
      rcases List.mem_append.mp hcand with hv0 | he0
      · -- vertex-extension candidate
        by_cases hg : n - 2 ≤ e' ∧ e' ≤ emaxs emax (n - 1)
        swap
        · rw [if_neg hg] at hv0
          exact absurd hv0 (List.not_mem_nil x.1)
        rw [if_pos hg] at hv0
        simp only [vertCands, List.mem_flatMap, List.mem_map, List.mem_range] at hv0
        obtain ⟨gc, hgc, v, hv, heq⟩ := hv0
        obtain ⟨py, hpy, hiso⟩ := ih (n - 1) gc hgc
        have hpywf : EdgesWf (n - 1) py.1 := (simpleBucket_wf hpy).2.1
        rw [isIso, List.any_eq_true] at hiso
        obtain ⟨p, hp, hsame⟩ := hiso
        obtain ⟨q, hq, _hqp, hpq⟩ := permsList_inverse hp
        obtain ⟨hpext, hext, hlast⟩ := permsList_extend (by omega : 1 ≤ n) hp
        refine ⟨py.1 ++ [(applyPerm q v, n - 1)], ?_, ?_⟩
        · rw [if_pos hg]
          refine List.mem_append.mpr (Or.inl ?_)
          simp only [vertCands, List.mem_flatMap, List.mem_map, List.mem_range]
          exact ⟨py, hpy, applyPerm q v, applyPerm_lt hq hv, rfl⟩
        · rw [isIso, List.any_eq_true]
          refine ⟨p ++ [n - 1], hpext, ?_⟩
          have hm1 : (py.1 ++ [(applyPerm q v, n - 1)]).map (mapEdge (p ++ [n - 1])) =
              py.1.map (mapEdge p) ++ [(v, n - 1)] := by
            rw [List.map_append]
            congr 1
            · apply List.map_congr_left
              intro ed hed
              obtain ⟨h1, h2⟩ := hpywf.1 ed hed
              cases ed with
              | mk a b =>
                show normPair (applyPerm (p ++ [n - 1]) a) (applyPerm (p ++ [n - 1]) b) =
                  normPair (applyPerm p a) (applyPerm p b)
                simp only at h1 h2
                rw [hext a (by omega), hext b (by omega)]
            · rw [List.map_cons, List.map_nil]
              congr 1
              show normPair (applyPerm (p ++ [n - 1]) (applyPerm q v))
                (applyPerm (p ++ [n - 1]) (n - 1)) = (v, n - 1)
              rw [hext (applyPerm q v) (applyPerm_lt hq hv), hlast, hpq v hv]
              exact normPair_of_lt (by omega)
          rw [hm1, ← heq]
          exact sameEdgeSet_append hsame
      · -- edge-extension candidate
        by_cases hg : n - 1 ≤ e' ∧ e' ≤ emaxs emax n
        swap
        · rw [if_neg hg] at he0
          exact absurd he0 (List.not_mem_nil x.1)
        rw [if_pos hg] at he0
        simp only [edgeCands, List.mem_flatMap, List.mem_map, List.mem_filter] at he0
        obtain ⟨gc, hgc, ed0, ⟨hed0, hnotin⟩, heq⟩ := he0
        obtain ⟨py, hpy, hiso⟩ := ih n gc hgc
        have hpywf : EdgesWf n py.1 := (simpleBucket_wf hpy).2.1
        rw [isIso, List.any_eq_true] at hiso
        obtain ⟨p, hp, hsame⟩ := hiso
        obtain ⟨q, hq, hqp, hpq⟩ := permsList_inverse hp
        obtain ⟨hlt0, hbd0⟩ := mem_baseEdges.mp hed0
        have hcancel : mapEdge p (mapEdge q ed0) = ed0 :=
          mapEdge_inv_cancel hpq hlt0 hbd0
        have hed'mem : mapEdge q ed0 ∈ baseEdges n := by
          cases ed0 with
          | mk a b =>
            simp only at hlt0 hbd0
            have hne : applyPerm q a ≠ applyPerm q b := by
              intro hbad
              have h1 : applyPerm p (applyPerm q a) = applyPerm p (applyPerm q b) := by
                rw [hbad]
              rw [hpq a (by omega), hpq b (by omega)] at h1
              omega
            show normPair (applyPerm q a) (applyPerm q b) ∈ baseEdges n
            rw [mem_baseEdges]
            exact ⟨normPair_lt_of_ne hne,
              normPair_snd_lt (applyPerm_lt hq (by omega)) (applyPerm_lt hq hbd0)⟩
        have hed'notin : mapEdge q ed0 ∉ py.1 := by
          intro hbad
          have h1 : mapEdge p (mapEdge q ed0) ∈ py.1.map (mapEdge p) :=
            List.mem_map_of_mem _ hbad
          rw [hcancel] at h1
          have h2 : ed0 ∈ gc.1 := (sameEdgeSet_iff.mp hsame ed0).mp h1
          rw [Bool.not_eq_true', ← Bool.not_eq_true] at hnotin
          exact hnotin (List.elem_eq_true_of_mem h2)
        refine ⟨py.1 ++ [mapEdge q ed0], ?_, ?_⟩
        · rw [if_pos hg]
          refine List.mem_append.mpr (Or.inr ?_)
          simp only [edgeCands, List.mem_flatMap, List.mem_map, List.mem_filter]
          refine ⟨py, hpy, mapEdge q ed0, ⟨hed'mem, ?_⟩, rfl⟩
          simpa using hed'notin
        · rw [isIso, List.any_eq_true]
          refine ⟨p, hp, ?_⟩
          have hm1 : (py.1 ++ [mapEdge q ed0]).map (mapEdge p) =
              py.1.map (mapEdge p) ++ [ed0] := by
            rw [List.map_append, List.map_cons, List.map_nil, hcancel]
          rw [hm1, ← heq]
          exact sameEdgeSet_append hsame
    obtain ⟨cand', hcmem, hciso⟩ := hmain
    have hcwf : EdgesWf n cand' := by
      refine ⟨hcands'wf cand' hcmem, ?_⟩
      rcases List.mem_append.mp hcmem with h | h
      · by_cases hg : n - 2 ≤ e' ∧ e' ≤ emaxs emax (n - 1)
        · rw [if_pos hg] at h
          exact ((vertCands_wf hpar'v hn3 cand' h).2).2
        · rw [if_neg hg] at h
          exact absurd h (List.not_mem_nil cand')
      · by_cases hg : n - 1 ≤ e' ∧ e' ≤ emaxs emax n
        · rw [if_pos hg] at h
          exact ((edgeCands_wf hpar'e cand' h).2).2
        · rw [if_neg hg] at h
          exact absurd h (List.not_mem_nil cand')
    have hchic' : chiF cand' n ≤ c' := by
      rw [hinv n cand' x.1 hcwf hxwf hciso]
      omega
    obtain ⟨y, hy, hyiso⟩ :=
      foldl_addIfNew_covers hcmem hchic' hcands'wf
        (fun gc hgc => absurd hgc (List.not_mem_nil gc))
    have hymem : y ∈ simpleBucket chiF nmax emax c' n (e' + 1) := by
      rw [hbeq]
      exact hy
    have hywf : EdgesWf n y.1 := (simpleBucket_wf hymem).2.1
    exact ⟨y, hymem, isIso_trans hywf.1 hyiso hciso⟩

/-- C9 (amended): for a deterministic, isomorphism-invariant complexity
collaborator, raising the complexity bound never decreases the number of
accepted simple graphs in any bucket; the unamended claim, without the
invariance condition, is refuted by the C9 counterexample. -/
theorem C9_cmax_monotone (chiF : List Edge → Nat → Nat) (nmax emax : Nat)
    (hinv : ∀ (m : Nat) (es1 es2 : List Edge), EdgesWf m es1 → EdgesWf m es2 →
      isIso m es1 es2 = true → chiF es1 m = chiF es2 m)
    (c c' : Nat) (hcc : c ≤ c') (n e : Nat) :
    (simpleBucket chiF nmax emax c n e).length ≤
      (simpleBucket chiF nmax emax c' n e).length := by
  classical
  have hpw : List.Pairwise (NonIso n) (simpleBucket chiF nmax emax c n e) :=
    simpleBucket_pairwise chiF nmax emax c n e
  have hnd : (simpleBucket chiF nmax emax c n e).Nodup := by
    refine List.Pairwise.imp_of_mem ?_ hpw
    intro a b ha _hb hni hab
    subst hab
    have hwfa := (simpleBucket_wf ha).2.1
    have hrefl := isIso_refl hwfa.1
    rw [hni.1] at hrefl
    exact absurd hrefl (by simp)
  have hchoose : ∀ x ∈ simpleBucket chiF nmax emax c n e,
      ∃ y, y ∈ simpleBucket chiF nmax emax c' n e ∧ isIso n y.1 x.1 = true := by
    intro x hx
    obtain ⟨y, hy, hyi⟩ := simpleBucket_mono_sim hinv hcc e n x hx
    exact ⟨y, hy, hyi⟩
  have hcard : (simpleBucket chiF nmax emax c n e).toFinset.card ≤
      (simpleBucket chiF nmax emax c' n e).toFinset.card := by
    apply Finset.card_le_card_of_injOn (fun x =>
      if h : ∃ y, y ∈ simpleBucket chiF nmax emax c' n e ∧ isIso n y.1 x.1 = true
      then h.choose else x)
    · intro x hx
      rw [List.mem_toFinset] at hx
      have hex := hchoose x hx
      rw [dif_pos hex, List.mem_toFinset]
      exact hex.choose_spec.1
    · intro x1 hx1 x2 hx2 hfeq
      rw [Finset.mem_coe, List.mem_toFinset] at hx1 hx2
      have hex1 := hchoose x1 hx1
      have hex2 := hchoose x2 hx2
      dsimp only at hfeq
      rw [dif_pos hex1, dif_pos hex2] at hfeq
      have hs1 := hex1.choose_spec
      have hs2 := hex2.choose_spec
      rw [hfeq] at hs1
      have hyw := (simpleBucket_wf hs2.1).2.1
      have hx1w := (simpleBucket_wf hx1).2.1
      have h1 : isIso n x1.1 hex2.choose.1 = true := isIso_symm hyw.1 hs1.2
      have h2 : isIso n x1.1 x2.1 = true := isIso_trans hx1w.1 h1 hs2.2
      by_contra hne
      have hni : NonIso n x1 x2 :=
        List.Pairwise.forall (fun a b hab => ⟨hab.2, hab.1⟩) hpw hx1 hx2 hne
      rw [hni.1] at h2
      exact absurd h2 (by simp)
  have h1 := List.toFinset_card_of_nodup hnd
  have h2 := List.toFinset_card_le (simpleBucket chiF nmax emax c' n e)
  omega

/-- Witness for the amended C9 at chiN, which is isomorphism-invariant
by construction: bucket (3,2) under complexity bounds 1 and 2. -/
theorem C9_cmax_monotone_witness :
    (∀ (m : Nat) (es1 es2 : List Edge), EdgesWf m es1 → EdgesWf m es2 →
      isIso m es1 es2 = true → chiN es1 m = chiN es2 m) ∧ 1 ≤ 2 ∧
    (simpleBucket chiN 4 4 1 3 2).length ≤ (simpleBucket chiN 4 4 2 3 2).length :=
  ⟨fun _ _ _ _ _ _ => rfl, by decide,
    C9_cmax_monotone chiN 4 4 (fun _ _ _ _ _ _ => rfl) 1 2 (by decide) 3 2⟩
